import Mathlib

/-!
Verification of the FUDG graph library (scripts/graph.py) against its
natural-language specification.

The development is a shallow embedding of the mutable Python object graph:
every node attribute becomes a total map from node identifiers (Nat) to its
value, and each method becomes a state-passing function that performs exactly
the mutations of the source, in source order.  The CBB aliasing mechanism
(CBBNode.become_pointer together with CBBNode.__getattr__ / __setattr__, which
forward reads and writes of the four attributes topcandidates,
parentcandidates, height and depth to the canonical bundle) is embedded by a
pointerto map plus read/write helpers that resolve one pointer step, exactly
as the source does.  Recursive traversals of the source (reachable,
_setMinHeight, _setMinDepth, get_yield) are embedded with an explicit fuel
argument; the Python originals recurse without a visited set and terminate
only on acyclic graphs, and every theorem below either quantifies over the
fuel or evaluates it on a concrete graph.
-/

set_option autoImplicit false

namespace FUDG

/-- Edge labels that can occur on childedges / parentedges entries of the
source: the cbbhead label is stored as the string top, unspecified membership
as unspec.  Plain dependency edges carry the Python label None, embedded as
the Option none. -/
inductive EdgeLabel where
  | top : EdgeLabel
  | unspec : EdgeLabel
deriving DecidableEq, Repr

/-- Node variants of graph.py: RootNode, LexicalNode, CoordinationNode,
CBBNode. -/
inductive Kind where
  | root : Kind
  | lex : Kind
  | coord : Kind
  | cbb : Kind
deriving DecidableEq, Repr

/-- Failure modes of the construction methods.  The source raises
AssertionError (the invariant checks at the top of FUDGNode.add_child,
CBBNode.add_member, CBBNode.become_pointer) or a plain Exception for the
cycle check; the spec names these InvariantViolation / ConstructionError and
CycleError. -/
inductive Err where
  | invariantViolation : Err
  | cycleError : Err
deriving DecidableEq, Repr

/-- State of the whole object graph: one field per Python instance attribute,
as a total map over node identifiers.  childedges and parentedges are kept as
lists because the passes iterate over them; children, parents, members and
externalchildren are kept as finite sets exactly like the Python sets.
Fragments (the Fragment objects of the source) are identified by Nat ids:
frag maps a node to its fragment id, fragRoots and fragNodes map a fragment
id to the roots / nodes fields of that Fragment object. -/
@[ext]
structure St where
  kind : Nat → Kind
  name : Nat → String
  children : Nat → Finset Nat
  childedges : Nat → List (Nat × Option EdgeLabel)
  parents : Nat → Finset Nat
  parentedges : Nat → List (Nat × Option EdgeLabel)
  height : Nat → Nat
  depth : Nat → Int
  frag : Nat → Nat
  fragRoots : Nat → Finset Nat
  fragNodes : Nat → Finset Nat
  members : Nat → Finset Nat
  externalchildren : Nat → Finset Nat
  top : Nat → Option Nat
  pointerto : Nat → Option Nat
  tc : Nat → Finset Nat
  pc : Nat → Finset Nat
  nodes : Finset Nat
  alltokens : List String
  tokens : Nat → Finset String
  token2lexnode : String → Option Nat

/-- Kind tests mirroring the isRoot / isLexical / isCoord / isCBB properties. -/
def isRoot (st : St) (n : Nat) : Prop := st.kind n = Kind.root

def isCBB (st : St) (n : Nat) : Prop := st.kind n = Kind.cbb

/-- Property isFirm of the source: anything but a CBB node. -/
def isFirm (st : St) (n : Nat) : Prop := st.kind n ≠ Kind.cbb

instance (st : St) (n : Nat) : Decidable (isRoot st n) := by
  unfold isRoot; infer_instance

instance (st : St) (n : Nat) : Decidable (isCBB st n) := by
  unfold isCBB; infer_instance

instance (st : St) (n : Nat) : Decidable (isFirm st n) := by
  unfold isFirm; infer_instance

/-- One step of pointer resolution: CBBNode.__getattr__ reads the forwarded
attribute directly from the _pointerto target when it is set (the merge loop
of FUDGGraph.__init__ never merges into an already merged bundle, so chains of
length two never arise). -/
def res (st : St) (n : Nat) : Nat := (st.pointerto n).getD n

/-- Read of the topcandidates attribute through __getattr__. -/
def tcRead (st : St) (n : Nat) : Finset Nat := st.tc (res st n)

/-- Write of the topcandidates attribute through __setattr__. -/
def tcWrite (st : St) (n : Nat) (v : Finset Nat) : St :=
  { st with tc := Function.update st.tc (res st n) v }

/-- Read of the parentcandidates attribute through __getattr__. -/
def pcRead (st : St) (n : Nat) : Finset Nat := st.pc (res st n)

/-- Write of the parentcandidates attribute through __setattr__. -/
def pcWrite (st : St) (n : Nat) (v : Finset Nat) : St :=
  { st with pc := Function.update st.pc (res st n) v }

/-- Read of the height attribute through __getattr__. -/
def heightR (st : St) (n : Nat) : Nat := st.height (res st n)

/-- Write of the height attribute through __setattr__. -/
def heightW (st : St) (n : Nat) (v : Nat) : St :=
  { st with height := Function.update st.height (res st n) v }

/-- Read of the depth attribute through __getattr__. -/
def depthR (st : St) (n : Nat) : Int := st.depth (res st n)

/-- Write of the depth attribute through __setattr__. -/
def depthW (st : St) (n : Nat) (v : Int) : St :=
  { st with depth := Function.update st.depth (res st n) v }

/-- Set of firm nodes of the graph, the firmNodes property of Graph. -/
def firmNodes (st : St) : Finset Nat := st.nodes.filter (fun n => isFirm st n)

/-!
## The upward pass (graph.py, function upward)

The pass visits the graph nodes sorted by height; for each CBB node it
assigns topcandidates the empty set and then folds over the childedges set:
a cbbhead edge (label top) overwrites the set with the contribution of that
child and breaks out of the loop, an unspec edge unions the contribution in,
and an unlabeled edge is skipped.  The contribution of a child c is its own
topcandidates when c is a CBB, else the singleton of c.  All reads and writes
of topcandidates go through the alias forwarding helpers above.
-/

/-- Contribution of one child to a candidate set: set(c.topcandidates) if
c.isCBB else the singleton of c. -/
def childContrib (st : St) (c : Nat) : Finset Nat :=
  if isCBB st c then tcRead st c else {c}

/-- State-passing body of the inner loop of the upward pass over the
childedges of node n, with the break on the cbbhead edge. -/
def upwardBody (st : St) (n : Nat) : List (Nat × Option EdgeLabel) → St
  | [] => st
  | (c, e) :: rest =>
    match e with
    | some EdgeLabel.top => tcWrite st n (childContrib st c)
    | some EdgeLabel.unspec =>
        upwardBody (tcWrite st n (tcRead st n ∪ childContrib st c)) n rest
    | none => upwardBody st n rest

/-- Processing of a single node by the upward pass: CBB nodes get their
topcandidates recomputed, all other nodes are untouched. -/
def upwardStep (st : St) (n : Nat) : St :=
  if isCBB st n then upwardBody (tcWrite st n ∅) n (st.childedges n) else st

/-- Whole upward pass over a list of nodes; the list stands for
sorted(F.nodes, key height) of the source, and the theorems below carry the
sortedness of that enumeration as a hypothesis. -/
def upwardRun (st : St) : List Nat → St
  | [] => st
  | n :: rest => upwardRun (upwardStep st n) rest

/-- Pure value computed by the inner loop of the upward pass for a fixed
state: the same fold as upwardBody but returning the accumulated set instead
of threading the state. -/
def tcFold (st : St) : List (Nat × Option EdgeLabel) → Finset Nat → Finset Nat
  | [], acc => acc
  | (c, e) :: rest, acc =>
    match e with
    | some EdgeLabel.top => childContrib st c
    | some EdgeLabel.unspec => tcFold st rest (acc ∪ childContrib st c)
    | none => tcFold st rest acc

/-- Union of the contributions of all unspec-labeled children of an edge
list: the value the upward pass computes when no cbbhead edge is present. -/
def unspecUnion (st : St) : List (Nat × Option EdgeLabel) → Finset Nat
  | [] => ∅
  | (c, e) :: rest =>
    (if e = some EdgeLabel.unspec then childContrib st c else ∅) ∪
      unspecUnion st rest

/-- Marker for the edge labels the upward pass acts on. -/
def relLbl (e : Option EdgeLabel) : Prop :=
  e = some EdgeLabel.top ∨ e = some EdgeLabel.unspec

instance (e : Option EdgeLabel) : Decidable (relLbl e) := by
  unfold relLbl; infer_instance

lemma tcWrite_read_self (st : St) (n : Nat) : tcWrite st n (tcRead st n) = st := by
  show { st with tc := Function.update st.tc (res st n) (st.tc (res st n)) } = st
  rw [Function.update_eq_self]

lemma tcWrite_tcWrite (st : St) (n : Nat) (u v : Finset Nat) :
    tcWrite (tcWrite st n u) n v = tcWrite st n v := by
  show { st with tc := Function.update (Function.update st.tc (res st n) u) (res st n) v }
    = { st with tc := Function.update st.tc (res st n) v }
  rw [Function.update_idem]

lemma tcRead_tcWrite_self (st : St) (n : Nat) (v : Finset Nat) :
    tcRead (tcWrite st n v) n = v := by
  show Function.update st.tc (res st n) v (res st n) = v
  rw [Function.update_same]

lemma tcRead_tcWrite_other (st : St) (n c : Nat) (v : Finset Nat)
    (h : res st c ≠ res st n) : tcRead (tcWrite st n v) c = tcRead st c := by
  show Function.update st.tc (res st n) v (res st c) = st.tc (res st c)
  rw [Function.update_noteq h]

lemma childContrib_tcWrite (st : St) (n c : Nat) (v : Finset Nat)
    (h : isCBB st c → res st c ≠ res st n) :
    childContrib (tcWrite st n v) c = childContrib st c := by
  show (if isCBB st c then tcRead (tcWrite st n v) c else {c})
    = (if isCBB st c then tcRead st c else {c})
  by_cases hc : isCBB st c
  · rw [if_pos hc, if_pos hc, tcRead_tcWrite_other st n c v (h hc)]
  · rw [if_neg hc, if_neg hc]

/-- Congruence for the pure inner-loop fold: two states with the same kinds
and pointers that agree on the topcandidates storage of every resolved CBB
child mentioned by the edge list produce the same fold value. -/
lemma tcFold_congr :
    ∀ (edges : List (Nat × Option EdgeLabel)) (st st2 : St),
      st2.kind = st.kind → st2.pointerto = st.pointerto →
      (∀ ce ∈ edges, relLbl ce.2 → isCBB st ce.1 →
        st2.tc (res st ce.1) = st.tc (res st ce.1)) →
      ∀ acc, tcFold st2 edges acc = tcFold st edges acc := by
  intro edges
  induction edges with
  | nil => intro st st2 _ _ _ acc; rfl
  | cons ce rest ih =>
    intro st st2 hk hp h acc
    obtain ⟨c, e⟩ := ce
    have hcbb : isCBB st2 c ↔ isCBB st c := by unfold isCBB; rw [hk]
    have hres : res st2 c = res st c := by unfold res; rw [hp]
    have hcontrib : relLbl e → childContrib st2 c = childContrib st c := by
      intro hrel
      unfold childContrib
      by_cases hc : isCBB st c
      · rw [if_pos (hcbb.mpr hc), if_pos hc]
        show st2.tc (res st2 c) = st.tc (res st c)
        rw [hres]
        exact h (c, e) (List.mem_cons_self _ _) hrel hc
      · rw [if_neg (fun hx => hc (hcbb.mp hx)), if_neg hc]
    match e with
    | some EdgeLabel.top =>
      show childContrib st2 c = childContrib st c
      exact hcontrib (Or.inl rfl)
    | some EdgeLabel.unspec =>
      show tcFold st2 rest (acc ∪ childContrib st2 c)
        = tcFold st rest (acc ∪ childContrib st c)
      rw [hcontrib (Or.inr rfl)]
      exact ih st st2 hk hp
        (fun ce hce hrel hc => h ce (List.mem_cons_of_mem _ hce) hrel hc) _
    | none =>
      exact ih st st2 hk hp
        (fun ce hce hrel hc => h ce (List.mem_cons_of_mem _ hce) hrel hc) acc

/-- The state-passing inner loop equals a single forwarded write of the pure
fold, provided no child of the loop resolves to the storage cell being
written (guaranteed in the passes because a CBB strictly dominates the height
of each of its children). -/
lemma upwardBody_eq :
    ∀ (edges : List (Nat × Option EdgeLabel)) (st : St) (n : Nat),
      (∀ ce ∈ edges, relLbl ce.2 → isCBB st ce.1 → res st ce.1 ≠ res st n) →
      upwardBody st n edges = tcWrite st n (tcFold st edges (tcRead st n)) := by
  intro edges
  induction edges with
  | nil => intro st n _; exact (tcWrite_read_self st n).symm
  | cons ce rest ih =>
    intro st n h
    obtain ⟨c, e⟩ := ce
    match e with
    | some EdgeLabel.top => rfl
    | some EdgeLabel.unspec =>
      show upwardBody (tcWrite st n (tcRead st n ∪ childContrib st c)) n rest
        = tcWrite st n (tcFold st rest (tcRead st n ∪ childContrib st c))
      set st1 := tcWrite st n (tcRead st n ∪ childContrib st c) with hst1
      have hk : st1.kind = st.kind := rfl
      have hp : st1.pointerto = st.pointerto := rfl
      have hrest : ∀ ce ∈ rest, relLbl ce.2 → isCBB st1 ce.1 →
          res st1 ce.1 ≠ res st1 n := by
        intro ce hce hrel hc
        exact h ce (List.mem_cons_of_mem _ hce) hrel hc
      rw [ih st1 n hrest]
      have hread : tcRead st1 n = tcRead st n ∪ childContrib st c :=
        tcRead_tcWrite_self st n _
      rw [hread]
      have hfold : tcFold st1 rest (tcRead st n ∪ childContrib st c)
          = tcFold st rest (tcRead st n ∪ childContrib st c) := by
        apply tcFold_congr rest st st1 hk hp
        intro ce hce hrel hc
        show Function.update st.tc (res st n) _ (res st ce.1) = st.tc (res st ce.1)
        exact Function.update_noteq
          (h ce (List.mem_cons_of_mem _ hce) hrel hc) _ _
      rw [hfold, hst1, tcWrite_tcWrite]
    | none =>
      show upwardBody st n rest = tcWrite st n (tcFold st rest (tcRead st n))
      exact ih st n (fun ce hce hrel hc => h ce (List.mem_cons_of_mem _ hce) hrel hc)

/-- One step of the upward pass on a CBB node is a single forwarded write of
the pure fold started from the empty set. -/
lemma upwardStep_eq (st : St) (n : Nat) (hcbb : isCBB st n)
    (hptr : st.pointerto n = none)
    (h : ∀ ce ∈ st.childedges n, relLbl ce.2 → isCBB st ce.1 → res st ce.1 ≠ n) :
    upwardStep st n = tcWrite st n (tcFold st (st.childedges n) ∅) := by
  have hresn : res st n = n := by unfold res; rw [hptr]; rfl
  unfold upwardStep
  rw [if_pos hcbb]
  set st0 := tcWrite st n ∅ with hst0
  have h0 : ∀ ce ∈ st0.childedges n, relLbl ce.2 → isCBB st0 ce.1 →
      res st0 ce.1 ≠ res st0 n := by
    intro ce hce hrel hc
    show res st ce.1 ≠ res st n
    rw [hresn]
    exact h ce hce hrel hc
  have hb : upwardBody st0 n (st.childedges n)
      = tcWrite st0 n (tcFold st0 (st.childedges n) (tcRead st0 n)) :=
    upwardBody_eq (st.childedges n) st0 n (fun ce hce => h0 ce hce)
  rw [hb, tcRead_tcWrite_self]
  have hfold : tcFold st0 (st.childedges n) ∅ = tcFold st (st.childedges n) ∅ := by
    apply tcFold_congr (st.childedges n) st st0 rfl rfl
    intro ce hce hrel hc
    show Function.update st.tc (res st n) ∅ (res st ce.1) = st.tc (res st ce.1)
    rw [hresn]
    exact Function.update_noteq (h ce hce hrel hc) _ _
  rw [hfold, hst0, tcWrite_tcWrite]

/-- Well-formedness of an upward-pass invocation.  The list L is the node
enumeration sorted(F.nodes, key height) of the source: it has no duplicates,
it is weakly sorted by the height attribute, no enumerated node is an alias
(FUDGGraph.__init__ removes merged bundles from the working node set), and a
CBB child of an enumerated CBB resolves to a node of strictly smaller height
(FUDGNode.add_child raises the height of a parent above the height of each
child, and CBBNode.become_pointer takes the maximum of the merged heights). -/
def UpHyp (st : St) (L : List Nat) : Prop :=
  L.Nodup ∧
  L.Pairwise (fun a b => heightR st a ≤ heightR st b) ∧
  (∀ n ∈ L, st.pointerto n = none) ∧
  (∀ n ∈ L, isCBB st n → ∀ ce ∈ st.childedges n, relLbl ce.2 → isCBB st ce.1 →
    st.height (res st ce.1) < st.height n)

instance (st : St) (L : List Nat) : Decidable (UpHyp st L) := by
  unfold UpHyp; infer_instance

/-- Characterization of the whole upward pass: it changes nothing but the
topcandidates storage of the processed CBB nodes, and after the pass the
stored set of every processed CBB node equals the pure fold of its child
edges evaluated in the final state. -/
lemma upwardRun_char :
    ∀ (L : List Nat) (st : St), UpHyp st L →
      ((upwardRun st L).kind = st.kind ∧ (upwardRun st L).pointerto = st.pointerto ∧
       (upwardRun st L).childedges = st.childedges ∧
       (upwardRun st L).height = st.height) ∧
      (∀ m, m ∉ L → (upwardRun st L).tc m = st.tc m) ∧
      (∀ n ∈ L, isCBB st n →
        (upwardRun st L).tc n = tcFold (upwardRun st L) (st.childedges n) ∅) := by
  intro L
  induction L with
  | nil =>
    intro st _
    exact ⟨⟨rfl, rfl, rfl, rfl⟩, fun m _ => rfl, fun n hn => absurd hn (List.not_mem_nil n)⟩
  | cons n rest ih =>
    intro st h
    obtain ⟨hnd, hsort, hptr, hch⟩ := h
    have hptrn : st.pointerto n = none := hptr n (List.mem_cons_self _ _)
    have hresn : res st n = n := by unfold res; rw [hptrn]; rfl
    have hndr : n ∉ rest := (List.nodup_cons.mp hnd).1
    by_cases hcbb : isCBB st n
    case neg =>
      have hstep : upwardStep st n = st := by unfold upwardStep; rw [if_neg hcbb]
      have hrun : upwardRun st (n :: rest) = upwardRun st rest := by
        show upwardRun (upwardStep st n) rest = upwardRun st rest
        rw [hstep]
      have hyp : UpHyp st rest :=
        ⟨(List.nodup_cons.mp hnd).2, (List.pairwise_cons.mp hsort).2,
         fun m hm => hptr m (List.mem_cons_of_mem _ hm),
         fun m hm => hch m (List.mem_cons_of_mem _ hm)⟩
      obtain ⟨hpres, hframe, hvals⟩ := ih st hyp
      rw [hrun]
      refine ⟨hpres, ?_, ?_⟩
      · intro m hm
        exact hframe m (fun hx => hm (List.mem_cons_of_mem _ hx))
      · intro k hk hkcbb
        rcases List.mem_cons.mp hk with hkeq | hkr
        · exact absurd (hkeq ▸ hkcbb) hcbb
        · exact hvals k hkr hkcbb
    case pos =>
      have hne : ∀ ce ∈ st.childedges n, relLbl ce.2 → isCBB st ce.1 →
          res st ce.1 ≠ n := by
        intro ce hce hrel hc heq
        have := hch n (List.mem_cons_self _ _) hcbb ce hce hrel hc
        rw [heq] at this
        exact lt_irrefl _ this
      have hstep : upwardStep st n = tcWrite st n (tcFold st (st.childedges n) ∅) :=
        upwardStep_eq st n hcbb hptrn hne
      set st1 := tcWrite st n (tcFold st (st.childedges n) ∅) with hst1
      have hrun : upwardRun st (n :: rest) = upwardRun st1 rest := by
        show upwardRun (upwardStep st n) rest = upwardRun st1 rest
        rw [hstep]
      have hyp : UpHyp st1 rest :=
        ⟨(List.nodup_cons.mp hnd).2, (List.pairwise_cons.mp hsort).2,
         fun m hm => hptr m (List.mem_cons_of_mem _ hm),
         fun m hm => hch m (List.mem_cons_of_mem _ hm)⟩
      obtain ⟨hpres, hframe, hvals⟩ := ih st1 hyp
      have htc1 : ∀ m, m ≠ n → st1.tc m = st.tc m := by
        intro m hm
        show Function.update st.tc (res st n) _ m = st.tc m
        rw [hresn]
        exact Function.update_noteq hm _ _
      rw [hrun]
      refine ⟨hpres, ?_, ?_⟩
      · intro m hm
        have hmn : m ≠ n := fun hx => hm (hx ▸ List.mem_cons_self _ _)
        have hmr : m ∉ rest := fun hx => hm (List.mem_cons_of_mem _ hx)
        rw [hframe m hmr, htc1 m hmn]
      · intro k hk hkcbb
        rcases List.mem_cons.mp hk with hkeq | hkr
        · subst hkeq
          have hv : (upwardRun st1 rest).tc k = st1.tc k := hframe k hndr
          have hv1 : st1.tc k = tcFold st (st.childedges k) ∅ := by
            show Function.update st.tc (res st k) _ k = _
            rw [hresn, Function.update_same]
          rw [hv, hv1]
          apply (tcFold_congr (st.childedges k) st (upwardRun st1 rest)
            (by rw [hpres.1]; rfl) (by rw [hpres.2.1]; rfl) ?_ ∅).symm
          intro ce hce hrel hc
          have hnotr : res st ce.1 ∉ rest := by
            intro hmem
            have hle := (List.pairwise_cons.mp hsort).1 _ hmem
            have hlt := hch k (List.mem_cons_self _ _) hkcbb ce hce hrel hc
            have hpr : st.pointerto (res st ce.1) = none :=
              hptr _ (List.mem_cons_of_mem _ hmem)
            have h1 : heightR st (res st ce.1) = st.height (res st ce.1) := by
              show st.height (res st (res st ce.1)) = st.height (res st ce.1)
              congr 1
              show (st.pointerto (res st ce.1)).getD (res st ce.1) = res st ce.1
              rw [hpr]
              rfl
            have h2 : heightR st k = st.height k := by
              unfold heightR; rw [hresn]
            rw [h1, h2] at hle
            exact absurd hlt (not_lt.mpr hle)
          have hnen : res st ce.1 ≠ k := hne ce hce hrel hc
          rw [hframe _ hnotr, htc1 _ hnen]
        · have := hvals k hkr hkcbb
          rw [this]
          have hce1 : st1.childedges k = st.childedges k := rfl
          rw [hce1]

/-- With a unique cbbhead edge present, the inner fold returns the
contribution of the designated-top child, whatever was accumulated before:
the source overwrites the accumulator and breaks at this edge. -/
lemma tcFold_of_top :
    ∀ (edges : List (Nat × Option EdgeLabel)) (st : St) (c : Nat),
      (c, some EdgeLabel.top) ∈ edges →
      (∀ ce ∈ edges, ce.2 = some EdgeLabel.top → ce.1 = c) →
      ∀ acc, tcFold st edges acc = childContrib st c := by
  intro edges
  induction edges with
  | nil => intro st c hmem; exact absurd hmem (List.not_mem_nil _)
  | cons ce rest ih =>
    intro st c hmem huniq acc
    obtain ⟨c0, e0⟩ := ce
    match e0 with
    | some EdgeLabel.top =>
      show childContrib st c0 = childContrib st c
      exact congrArg (childContrib st)
        (huniq (c0, some EdgeLabel.top) (List.mem_cons_self _ _) rfl)
    | some EdgeLabel.unspec =>
      have hr : (c, some EdgeLabel.top) ∈ rest := by
        rcases List.mem_cons.mp hmem with heq | hr
        · exact absurd (congrArg Prod.snd heq).symm (by simp)
        · exact hr
      exact ih st c hr
        (fun ce hce he => huniq ce (List.mem_cons_of_mem _ hce) he) _
    | none =>
      have hr : (c, some EdgeLabel.top) ∈ rest := by
        rcases List.mem_cons.mp hmem with heq | hr
        · exact absurd (congrArg Prod.snd heq).symm (by simp)
        · exact hr
      exact ih st c hr
        (fun ce hce he => huniq ce (List.mem_cons_of_mem _ hce) he) acc

/-- Without a cbbhead edge, the inner fold unions the contributions of all
unspec children into the accumulator. -/
lemma tcFold_of_no_top :
    ∀ (edges : List (Nat × Option EdgeLabel)) (st : St),
      (∀ c, (c, some EdgeLabel.top) ∉ edges) →
      ∀ acc, tcFold st edges acc = acc ∪ unspecUnion st edges := by
  intro edges
  induction edges with
  | nil => intro st _ acc; exact (Finset.union_empty acc).symm
  | cons ce rest ih =>
    intro st h acc
    obtain ⟨c0, e0⟩ := ce
    match e0 with
    | some EdgeLabel.top => exact absurd (List.mem_cons_self _ _) (h c0)
    | some EdgeLabel.unspec =>
      show tcFold st rest (acc ∪ childContrib st c0)
        = acc ∪ ((if (some EdgeLabel.unspec : Option EdgeLabel) = some EdgeLabel.unspec
            then childContrib st c0 else ∅) ∪ unspecUnion st rest)
      rw [ih st (fun c hc => h c (List.mem_cons_of_mem _ hc)), if_pos rfl,
        Finset.union_assoc]
    | none =>
      show tcFold st rest acc
        = acc ∪ ((if (none : Option EdgeLabel) = some EdgeLabel.unspec
            then childContrib st c0 else ∅) ∪ unspecUnion st rest)
      rw [ih st (fun c hc => h c (List.mem_cons_of_mem _ hc)), if_neg (by simp),
        Finset.empty_union]

/-- Every element of the inner fold comes from the accumulator or from the
contribution of some top- or unspec-labeled child. -/
lemma mem_tcFold :
    ∀ (edges : List (Nat × Option EdgeLabel)) (st : St) (acc : Finset Nat) (x : Nat),
      x ∈ tcFold st edges acc →
      x ∈ acc ∨ ∃ ce ∈ edges, relLbl ce.2 ∧ x ∈ childContrib st ce.1 := by
  intro edges
  induction edges with
  | nil => intro st acc x hx; exact Or.inl hx
  | cons ce rest ih =>
    intro st acc x hx
    obtain ⟨c0, e0⟩ := ce
    match e0 with
    | some EdgeLabel.top =>
      exact Or.inr ⟨(c0, some EdgeLabel.top), List.mem_cons_self _ _, Or.inl rfl, hx⟩
    | some EdgeLabel.unspec =>
      rcases ih st _ x hx with hacc | ⟨ce, hce, hrel, hxc⟩
      · rcases Finset.mem_union.mp hacc with h1 | h2
        · exact Or.inl h1
        · exact Or.inr ⟨(c0, some EdgeLabel.unspec), List.mem_cons_self _ _,
            Or.inr rfl, h2⟩
      · exact Or.inr ⟨ce, List.mem_cons_of_mem _ hce, hrel, hxc⟩
    | none =>
      rcases ih st acc x hx with hacc | ⟨ce, hce, hrel, hxc⟩
      · exact Or.inl hacc
      · exact Or.inr ⟨ce, List.mem_cons_of_mem _ hce, hrel, hxc⟩

/-- Running the upward pass on a state in which every processed CBB already
stores the fold of its child edges changes nothing. -/
lemma upwardRun_fix :
    ∀ (L : List Nat) (st : St),
      (∀ n ∈ L, st.pointerto n = none) →
      (∀ n ∈ L, isCBB st n →
        (∀ ce ∈ st.childedges n, relLbl ce.2 → isCBB st ce.1 → res st ce.1 ≠ n) ∧
        st.tc n = tcFold st (st.childedges n) ∅) →
      upwardRun st L = st := by
  intro L
  induction L with
  | nil => intro st _ _; rfl
  | cons n rest ih =>
    intro st hptr hfix
    have hresn : res st n = n := by
      unfold res; rw [hptr n (List.mem_cons_self _ _)]; rfl
    have hstep : upwardStep st n = st := by
      by_cases hcbb : isCBB st n
      · rw [upwardStep_eq st n hcbb (hptr n (List.mem_cons_self _ _))
          (hfix n (List.mem_cons_self _ _) hcbb).1,
          ← (hfix n (List.mem_cons_self _ _) hcbb).2]
        show { st with tc := Function.update st.tc (res st n) (st.tc n) } = st
        rw [hresn, Function.update_eq_self]
      · unfold upwardStep; rw [if_neg hcbb]
    show upwardRun (upwardStep st n) rest = st
    rw [hstep]
    exact ih st (fun m hm => hptr m (List.mem_cons_of_mem _ hm))
      (fun m hm => hfix m (List.mem_cons_of_mem _ hm))

/-- Idempotence of the upward pass over an unchanged graph. -/
lemma upward_idem (st : St) (L : List Nat) (h : UpHyp st L) :
    upwardRun (upwardRun st L) L = upwardRun st L := by
  obtain ⟨⟨hkind, hptr, hce, hh⟩, hframe, hvals⟩ := upwardRun_char L st h
  apply upwardRun_fix
  · intro n hn
    rw [hptr]
    exact h.2.2.1 n hn
  · intro n hn hcbbF
    have hcbb : isCBB st n := by
      unfold isCBB at hcbbF ⊢; rw [hkind] at hcbbF; exact hcbbF
    have hresn : res st n = n := by
      unfold res; rw [h.2.2.1 n hn]; rfl
    constructor
    · intro ce hceF hrel hcF
      rw [show (upwardRun st L).childedges n = st.childedges n from
        congrFun hce n] at hceF
      have hcS : isCBB st ce.1 := by
        unfold isCBB at hcF ⊢; rw [hkind] at hcF; exact hcF
      have hlt := h.2.2.2 n hn hcbb ce hceF hrel hcS
      have hresF : res (upwardRun st L) ce.1 = res st ce.1 := by
        unfold res; rw [hptr]
      rw [hresF]
      intro heq
      rw [heq] at hlt
      exact lt_irrefl _ hlt
    · rw [show (upwardRun st L).childedges n = st.childedges n from
        congrFun hce n]
      exact hvals n hn hcbb

/-- C1: after the upward pass, for every bundle B of the processed node list
(the graph nodes sorted by height): if B has a designated-top child edge to a
child c — unique, as the source asserts — then the topcandidates of B equal
the topcandidates of c when c is itself a bundle and the singleton of c
otherwise; and if B has no designated-top child edge, the topcandidates of B
are the union, over every unspec-labeled child, of that child contribution.
All candidate sets are read through the alias-forwarding accessor, exactly as
the source reads the topcandidates attribute. -/
theorem claim1_upward_topcandidates (st : St) (L : List Nat) (h : UpHyp st L)
    (B : Nat) (hB : B ∈ L) (hcbb : isCBB st B) :
    (∀ c, (c, some EdgeLabel.top) ∈ st.childedges B →
      (∀ ce ∈ st.childedges B, ce.2 = some EdgeLabel.top → ce.1 = c) →
      tcRead (upwardRun st L) B = childContrib (upwardRun st L) c) ∧
    ((∀ c, (c, some EdgeLabel.top) ∉ st.childedges B) →
      tcRead (upwardRun st L) B = unspecUnion (upwardRun st L) (st.childedges B)) := by
  obtain ⟨⟨hkind, hptr, hce, hh⟩, hframe, hvals⟩ := upwardRun_char L st h
  have hread : tcRead (upwardRun st L) B = (upwardRun st L).tc B := by
    unfold tcRead res
    rw [hptr, h.2.2.1 B hB]
    rfl
  have hfold := hvals B hB hcbb
  constructor
  · intro c hmem huniq
    rw [hread, hfold]
    exact tcFold_of_top (st.childedges B) (upwardRun st L) c hmem huniq ∅
  · intro hno
    rw [hread, hfold,
      tcFold_of_no_top (st.childedges B) (upwardRun st L) hno ∅,
      Finset.empty_union]

/-- C3: after the upward pass, for every bundle B of the processed node
list, B is not an element of its own topcandidates and no element of the
topcandidates of B is itself a bundle.  The hypothesis hclosed states that
the CBB children of processed CBB nodes resolve to processed CBB nodes,
which FUDGGraph construction guarantees (a merged bundle forwards to its
canonical bundle, which stays in the working node set). -/
theorem claim3_topcandidates_no_bundle (st : St) (L : List Nat) (h : UpHyp st L)
    (hclosed : ∀ n ∈ L, isCBB st n → ∀ ce ∈ st.childedges n, relLbl ce.2 →
      isCBB st ce.1 → res st ce.1 ∈ L ∧ isCBB st (res st ce.1)) :
    ∀ B ∈ L, isCBB st B →
      B ∉ tcRead (upwardRun st L) B ∧
      ∀ x ∈ tcRead (upwardRun st L) B, ¬ isCBB st x := by
  obtain ⟨⟨hkind, hptr, hce, hh⟩, hframe, hvals⟩ := upwardRun_char L st h
  have hreads : ∀ m ∈ L, tcRead (upwardRun st L) m = (upwardRun st L).tc m := by
    intro m hm
    unfold tcRead res
    rw [hptr, h.2.2.1 m hm]
    rfl
  have main : ∀ hgt : Nat, ∀ B ∈ L, isCBB st B → st.height B ≤ hgt →
      ∀ x ∈ (upwardRun st L).tc B, ¬ isCBB st x := by
    intro hgt
    induction hgt using Nat.strong_induction_on with
    | _ hgt IH =>
      intro B hB hcbb hle x hx
      rw [hvals B hB hcbb] at hx
      rcases mem_tcFold (st.childedges B) (upwardRun st L) ∅ x hx with
        hacc | ⟨ce, hcem, hrel, hxc⟩
      · exact absurd hacc (Finset.not_mem_empty x)
      · by_cases hccbb : isCBB st ce.1
        · have hFcbb : isCBB (upwardRun st L) ce.1 := by
            unfold isCBB; rw [hkind]; exact hccbb
          unfold childContrib at hxc
          rw [if_pos hFcbb] at hxc
          obtain ⟨hmemL, hrcbb⟩ := hclosed B hB hcbb ce hcem hrel hccbb
          have hresF : res (upwardRun st L) ce.1 = res st ce.1 := by
            unfold res; rw [hptr]
          have hxc2 : x ∈ (upwardRun st L).tc (res st ce.1) := by
            unfold tcRead at hxc; rw [hresF] at hxc; exact hxc
          have hlt := h.2.2.2 B hB hcbb ce hcem hrel hccbb
          exact IH (st.height (res st ce.1)) (lt_of_lt_of_le hlt hle)
            (res st ce.1) hmemL hrcbb le_rfl x hxc2
        · have hFcbb : ¬ isCBB (upwardRun st L) ce.1 := by
            unfold isCBB; rw [hkind]; exact hccbb
          unfold childContrib at hxc
          rw [if_neg hFcbb] at hxc
          rw [Finset.mem_singleton.mp hxc]
          exact hccbb
  intro B hB hcbb
  have hnocbb : ∀ x ∈ tcRead (upwardRun st L) B, ¬ isCBB st x := by
    intro x hx
    rw [hreads B hB] at hx
    exact main (st.height B) B hB hcbb le_rfl x hx
  exact ⟨fun hmem => hnocbb B hmem hcbb, hnocbb⟩

/-!
## The downward pass (graph.py, function downward)

The pass visits the graph nodes sorted by depth; for each non-root node it
seeds parentcandidates with the firm nodes of the graph minus the node
itself minus the value of the descendants property, then intersects one
constraint per parent edge.
-/

/-- Value, as a set of graph nodes, of the descendants property of
FUDGNode (graph.py lines 117-119).  The source builds
set(self.descendantsIter()) where descendantsIter returns an
itertools.groupby object over a chain of child nodes and nested generator
objects; iterating a groupby yields (key, grouper) tuples, so the resulting
Python set contains only 2-tuples and never contains a graph node.  Its
intersection with, or subtraction from, any set of nodes is therefore empty,
which this embedding records by the empty set of node identifiers. -/
def descendantsCode (st : St) (n : Nat) : Finset Nat :=
  ∅

/-- Intended transitive-closure descendants of a node, bounded by fuel:
the set the docstring of downward and the spec refer to.  This is the
correct mathematical notion, defined here to state how far the code value
descendantsCode diverges from it. -/
def trueDescendants (st : St) : Nat → Nat → Finset Nat
  | 0, n => st.children n
  | fuel + 1, n => st.children n ∪ (st.children n).biUnion (trueDescendants st fuel)

/-- Union of the contributions of the other members of a CBB p, used by the
member branch of the downward pass for the siblings of n. -/
def sibUnion (st : St) (p n : Nat) : Finset Nat :=
  (st.members p \ {n}).biUnion (fun sib => childContrib st sib)

/-- Constraint contributed by one parent edge (p, label) of node n in the
downward pass, mirroring graph.py lines 532-551: a CBB parent with n as
member contributes the union of the bundle parentcandidates (when the top of
n may be the bundle top) and the sibling contributions (when it may not); a
CBB parent with n as external child contributes the bundle topcandidates; a
firm parent contributes its own singleton. -/
def dwConstraint (st : St) (n p : Nat) : Finset Nat :=
  if isCBB st p then
    if n ∈ st.members p then
      (if tcRead st p ∩ childContrib st n ≠ ∅ then pcRead st p else ∅) ∪
        (if tcRead st p ≠ childContrib st n then sibUnion st p n else ∅)
    else tcRead st p
  else {p}

/-- State-passing inner loop of the downward pass over the parent edges of
node n; each step intersects the stored parentcandidates of n with the
constraint of one parent edge. -/
def downwardBody (st : St) (n : Nat) : List (Nat × Option EdgeLabel) → St
  | [] => st
  | (p, _) :: rest =>
    downwardBody (pcWrite st n (pcRead st n ∩ dwConstraint st n p)) n rest

/-- Pure value of the downward inner loop for a fixed state. -/
def dwFold (st : St) (n : Nat) : List (Nat × Option EdgeLabel) → Finset Nat → Finset Nat
  | [], acc => acc
  | (p, _) :: rest, acc => dwFold st n rest (acc ∩ dwConstraint st n p)

/-- Seed of the downward pass for node n: G.firmNodes - the node - the value
of the descendants property (which, by the groupby slip recorded in
descendantsCode, subtracts nothing). -/
def seedPC (st : St) (n : Nat) : Finset Nat :=
  (firmNodes st \ {n}) \ descendantsCode st n

/-- Processing of a single node by the downward pass: non-root nodes get
their parentcandidates seeded and then constrained along each parent edge. -/
def downwardStep (st : St) (n : Nat) : St :=
  if isRoot st n then st
  else downwardBody (pcWrite st n (seedPC st n)) n (st.parentedges n)

/-- Whole downward pass over a list of nodes; the list stands for
sorted(G.nodes, key depth) of the source. -/
def downwardRun (st : St) : List Nat → St
  | [] => st
  | n :: rest => downwardRun (downwardStep st n) rest

lemma pcWrite_read_self (st : St) (n : Nat) : pcWrite st n (pcRead st n) = st := by
  show { st with pc := Function.update st.pc (res st n) (st.pc (res st n)) } = st
  rw [Function.update_eq_self]

lemma pcWrite_pcWrite (st : St) (n : Nat) (u v : Finset Nat) :
    pcWrite (pcWrite st n u) n v = pcWrite st n v := by
  show { st with pc := Function.update (Function.update st.pc (res st n) u) (res st n) v }
    = { st with pc := Function.update st.pc (res st n) v }
  rw [Function.update_idem]

lemma pcRead_pcWrite_self (st : St) (n : Nat) (v : Finset Nat) :
    pcRead (pcWrite st n v) n = v := by
  show Function.update st.pc (res st n) v (res st n) = v
  rw [Function.update_same]

/-- Congruence for the downward constraint: two states with the same kinds,
pointers, members and topcandidates storage that agree on the
parentcandidates storage of the resolved parent (only consulted in the
member branch) produce the same constraint. -/
lemma dwConstraint_congr (st st2 : St) (n p : Nat)
    (hk : st2.kind = st.kind) (hp : st2.pointerto = st.pointerto)
    (hm : st2.members = st.members) (ht : st2.tc = st.tc)
    (hpc : isCBB st p → n ∈ st.members p → st2.pc (res st p) = st.pc (res st p)) :
    dwConstraint st2 n p = dwConstraint st n p := by
  have hres : ∀ m, res st2 m = res st m := by intro m; unfold res; rw [hp]
  have htr : ∀ m, tcRead st2 m = tcRead st m := by
    intro m; unfold tcRead; rw [ht, hres]
  have hcbb : ∀ m, isCBB st2 m ↔ isCBB st m := by
    intro m; unfold isCBB; rw [hk]
  have hcontrib : ∀ m, childContrib st2 m = childContrib st m := by
    intro m
    unfold childContrib
    by_cases hc : isCBB st m
    · rw [if_pos ((hcbb m).mpr hc), if_pos hc, htr]
    · rw [if_neg (fun hx => hc ((hcbb m).mp hx)), if_neg hc]
  unfold dwConstraint
  by_cases hpcbb : isCBB st p
  · rw [if_pos ((hcbb p).mpr hpcbb), if_pos hpcbb, hm]
    by_cases hmem : n ∈ st.members p
    · rw [if_pos hmem, if_pos hmem, htr, hcontrib]
      have hpcr : pcRead st2 p = pcRead st p := by
        unfold pcRead; rw [hres]; exact hpc hpcbb hmem
      have hsib : sibUnion st2 p n = sibUnion st p n := by
        unfold sibUnion
        rw [hm]
        exact Finset.biUnion_congr rfl (fun sib _ => hcontrib sib)
      rw [hpcr, hsib]
    · rw [if_neg hmem, if_neg hmem, htr]
  · rw [if_neg (fun hx => hpcbb ((hcbb p).mp hx)), if_neg hpcbb]

/-- Congruence for the pure downward fold. -/
lemma dwFold_congr :
    ∀ (pes : List (Nat × Option EdgeLabel)) (st st2 : St) (n : Nat),
      st2.kind = st.kind → st2.pointerto = st.pointerto →
      st2.members = st.members → st2.tc = st.tc →
      (∀ pe ∈ pes, isCBB st pe.1 → n ∈ st.members pe.1 →
        st2.pc (res st pe.1) = st.pc (res st pe.1)) →
      ∀ acc, dwFold st2 n pes acc = dwFold st n pes acc := by
  intro pes
  induction pes with
  | nil => intro st st2 n _ _ _ _ _ acc; rfl
  | cons pe rest ih =>
    intro st st2 n hk hp hm ht h acc
    obtain ⟨p, e⟩ := pe
    show dwFold st2 n rest (acc ∩ dwConstraint st2 n p)
      = dwFold st n rest (acc ∩ dwConstraint st n p)
    rw [dwConstraint_congr st st2 n p hk hp hm ht
      (fun h1 h2 => h (p, e) (List.mem_cons_self _ _) h1 h2)]
    exact ih st st2 n hk hp hm ht
      (fun pe hpe h1 h2 => h pe (List.mem_cons_of_mem _ hpe) h1 h2) _

/-- The state-passing downward inner loop equals a single forwarded write of
the pure fold, provided no consulted parent resolves to the cell being
written. -/
lemma downwardBody_eq :
    ∀ (pes : List (Nat × Option EdgeLabel)) (st : St) (n : Nat),
      (∀ pe ∈ pes, isCBB st pe.1 → n ∈ st.members pe.1 →
        res st pe.1 ≠ res st n) →
      downwardBody st n pes = pcWrite st n (dwFold st n pes (pcRead st n)) := by
  intro pes
  induction pes with
  | nil => intro st n _; exact (pcWrite_read_self st n).symm
  | cons pe rest ih =>
    intro st n h
    obtain ⟨p, e⟩ := pe
    show downwardBody (pcWrite st n (pcRead st n ∩ dwConstraint st n p)) n rest
      = pcWrite st n (dwFold st n rest (pcRead st n ∩ dwConstraint st n p))
    set st1 := pcWrite st n (pcRead st n ∩ dwConstraint st n p) with hst1
    have hrest : ∀ pe ∈ rest, isCBB st1 pe.1 → n ∈ st1.members pe.1 →
        res st1 pe.1 ≠ res st1 n := by
      intro pe hpe h1 h2
      exact h pe (List.mem_cons_of_mem _ hpe) h1 h2
    rw [ih st1 n hrest]
    have hread : pcRead st1 n = pcRead st n ∩ dwConstraint st n p :=
      pcRead_pcWrite_self st n _
    rw [hread]
    have hfold : dwFold st1 n rest (pcRead st n ∩ dwConstraint st n p)
        = dwFold st n rest (pcRead st n ∩ dwConstraint st n p) := by
      apply dwFold_congr rest st st1 n rfl rfl rfl rfl
      intro pe hpe h1 h2
      show Function.update st.pc (res st n) _ (res st pe.1) = st.pc (res st pe.1)
      exact Function.update_noteq (h pe (List.mem_cons_of_mem _ hpe) h1 h2) _ _
    rw [hfold, hst1, pcWrite_pcWrite]

/-- One step of the downward pass on a non-root node is a single forwarded
write of the pure fold started from the seed. -/
lemma downwardStep_eq (st : St) (n : Nat) (hroot : ¬ isRoot st n)
    (h : ∀ pe ∈ st.parentedges n, isCBB st pe.1 → n ∈ st.members pe.1 →
      res st pe.1 ≠ res st n) :
    downwardStep st n = pcWrite st n (dwFold st n (st.parentedges n) (seedPC st n)) := by
  unfold downwardStep
  rw [if_neg hroot]
  set st0 := pcWrite st n (seedPC st n) with hst0
  have h0 : ∀ pe ∈ st0.parentedges n, isCBB st0 pe.1 → n ∈ st0.members pe.1 →
      res st0 pe.1 ≠ res st0 n := by
    intro pe hpe h1 h2
    exact h pe hpe h1 h2
  have hb := downwardBody_eq (st.parentedges n) st0 n h0
  rw [hb, pcRead_pcWrite_self]
  have hfold : dwFold st0 n (st.parentedges n) (seedPC st n)
      = dwFold st n (st.parentedges n) (seedPC st n) := by
    apply dwFold_congr (st.parentedges n) st st0 n rfl rfl rfl rfl
    intro pe hpe h1 h2
    show Function.update st.pc (res st n) _ (res st pe.1) = st.pc (res st pe.1)
    exact Function.update_noteq (h pe hpe h1 h2) _ _
  rw [hfold, hst0, pcWrite_pcWrite]

/-- Well-formedness of a downward-pass invocation: the node list is the
enumeration sorted(G.nodes, key depth) of the source, no enumerated node is
an alias, and the CBB parent of each enumerated member node resolves to a
node of strictly smaller depth (parents precede their children in depth,
which the full depth recomputation of FUDGNode.add_child establishes). -/
def DownHyp (st : St) (D : List Nat) : Prop :=
  D.Nodup ∧
  D.Pairwise (fun a b => depthR st a ≤ depthR st b) ∧
  (∀ n ∈ D, st.pointerto n = none) ∧
  (∀ n ∈ D, ¬ isRoot st n → ∀ pe ∈ st.parentedges n, isCBB st pe.1 →
    n ∈ st.members pe.1 → st.depth (res st pe.1) < st.depth n)

instance (st : St) (D : List Nat) : Decidable (DownHyp st D) := by
  unfold DownHyp; infer_instance

/-- Characterization of the whole downward pass: it changes nothing but the
parentcandidates storage of the processed non-root nodes, and after the pass
the stored set of every processed non-root node equals the pure fold of its
parent edges over the seed, evaluated in the final state. -/
lemma downwardRun_char :
    ∀ (D : List Nat) (st : St), DownHyp st D →
      ((downwardRun st D).kind = st.kind ∧ (downwardRun st D).pointerto = st.pointerto ∧
       (downwardRun st D).parentedges = st.parentedges ∧
       (downwardRun st D).members = st.members ∧
       (downwardRun st D).tc = st.tc ∧
       (downwardRun st D).depth = st.depth ∧
       (downwardRun st D).nodes = st.nodes) ∧
      (∀ m, m ∉ D → (downwardRun st D).pc m = st.pc m) ∧
      (∀ n ∈ D, ¬ isRoot st n →
        (downwardRun st D).pc n
          = dwFold (downwardRun st D) n (st.parentedges n) (seedPC st n)) := by
  intro D
  induction D with
  | nil =>
    intro st _
    exact ⟨⟨rfl, rfl, rfl, rfl, rfl, rfl, rfl⟩, fun m _ => rfl,
      fun n hn => absurd hn (List.not_mem_nil n)⟩
  | cons n rest ih =>
    intro st h
    obtain ⟨hnd, hsort, hptr, hdep⟩ := h
    have hptrn : st.pointerto n = none := hptr n (List.mem_cons_self _ _)
    have hresn : res st n = n := by unfold res; rw [hptrn]; rfl
    have hndr : n ∉ rest := (List.nodup_cons.mp hnd).1
    by_cases hroot : isRoot st n
    case pos =>
      have hstep : downwardStep st n = st := by
        unfold downwardStep; rw [if_pos hroot]
      have hrun : downwardRun st (n :: rest) = downwardRun st rest := by
        show downwardRun (downwardStep st n) rest = downwardRun st rest
        rw [hstep]
      have hyp : DownHyp st rest :=
        ⟨(List.nodup_cons.mp hnd).2, (List.pairwise_cons.mp hsort).2,
         fun m hm => hptr m (List.mem_cons_of_mem _ hm),
         fun m hm => hdep m (List.mem_cons_of_mem _ hm)⟩
      obtain ⟨hpres, hframe, hvals⟩ := ih st hyp
      rw [hrun]
      refine ⟨hpres, ?_, ?_⟩
      · intro m hm
        exact hframe m (fun hx => hm (List.mem_cons_of_mem _ hx))
      · intro k hk hkroot
        rcases List.mem_cons.mp hk with hkeq | hkr
        · exact absurd (hkeq ▸ hroot) hkroot
        · exact hvals k hkr hkroot
    case neg =>
      have hne : ∀ pe ∈ st.parentedges n, isCBB st pe.1 → n ∈ st.members pe.1 →
          res st pe.1 ≠ res st n := by
        intro pe hpe h1 h2 heq
        have := hdep n (List.mem_cons_self _ _) hroot pe hpe h1 h2
        rw [heq, hresn] at this
        exact lt_irrefl _ this
      have hstep : downwardStep st n
          = pcWrite st n (dwFold st n (st.parentedges n) (seedPC st n)) :=
        downwardStep_eq st n hroot hne
      set st1 := pcWrite st n (dwFold st n (st.parentedges n) (seedPC st n)) with hst1
      have hrun : downwardRun st (n :: rest) = downwardRun st1 rest := by
        show downwardRun (downwardStep st n) rest = downwardRun st1 rest
        rw [hstep]
      have hyp : DownHyp st1 rest :=
        ⟨(List.nodup_cons.mp hnd).2, (List.pairwise_cons.mp hsort).2,
         fun m hm => hptr m (List.mem_cons_of_mem _ hm),
         fun m hm => hdep m (List.mem_cons_of_mem _ hm)⟩
      obtain ⟨hpres, hframe, hvals⟩ := ih st1 hyp
      have hpc1 : ∀ m, m ≠ n → st1.pc m = st.pc m := by
        intro m hm
        show Function.update st.pc (res st n) _ m = st.pc m
        rw [hresn]
        exact Function.update_noteq hm _ _
      rw [hrun]
      refine ⟨hpres, ?_, ?_⟩
      · intro m hm
        have hmn : m ≠ n := fun hx => hm (hx ▸ List.mem_cons_self _ _)
        have hmr : m ∉ rest := fun hx => hm (List.mem_cons_of_mem _ hx)
        rw [hframe m hmr, hpc1 m hmn]
      · intro k hk hkroot
        rcases List.mem_cons.mp hk with hkeq | hkr
        · subst hkeq
          have hv : (downwardRun st1 rest).pc k = st1.pc k := hframe k hndr
          have hv1 : st1.pc k = dwFold st k (st.parentedges k) (seedPC st k) := by
            show Function.update st.pc (res st k) _ k = _
            rw [hresn, Function.update_same]
          rw [hv, hv1]
          apply (dwFold_congr (st.parentedges k) st (downwardRun st1 rest) k
            (by rw [hpres.1]; rfl) (by rw [hpres.2.1]; rfl)
            (by rw [hpres.2.2.2.1]; rfl) (by rw [hpres.2.2.2.2.1]; rfl) ?_
            (seedPC st k)).symm
          intro pe hpe h1 h2
          have hnotr : res st pe.1 ∉ rest := by
            intro hmem
            have hle := (List.pairwise_cons.mp hsort).1 _ hmem
            have hlt := hdep k (List.mem_cons_self _ _) hkroot pe hpe h1 h2
            have hpr : st.pointerto (res st pe.1) = none :=
              hptr _ (List.mem_cons_of_mem _ hmem)
            have hd1 : depthR st (res st pe.1) = st.depth (res st pe.1) := by
              show st.depth (res st (res st pe.1)) = st.depth (res st pe.1)
              congr 1
              show (st.pointerto (res st pe.1)).getD (res st pe.1) = res st pe.1
              rw [hpr]
              rfl
            have hd2 : depthR st k = st.depth k := by
              unfold depthR; rw [hresn]
            rw [hd1, hd2] at hle
            exact absurd hlt (not_lt.mpr hle)
          have hnen : res st pe.1 ≠ k := by
            have := hne pe hpe h1 h2
            rw [hresn] at this
            exact this
          rw [hframe _ hnotr, hpc1 _ hnen]
        · have := hvals k hkr hkroot
          rw [this]
          have hpe1 : st1.parentedges k = st.parentedges k := rfl
          have hseed1 : seedPC st1 k = seedPC st k := rfl
          rw [hpe1, hseed1]

/-- Running the downward pass on a state in which every processed non-root
node already stores the fold of its parent edges over its seed changes
nothing. -/
lemma downwardRun_fix :
    ∀ (D : List Nat) (st : St),
      (∀ n ∈ D, st.pointerto n = none) →
      (∀ n ∈ D, ¬ isRoot st n →
        (∀ pe ∈ st.parentedges n, isCBB st pe.1 → n ∈ st.members pe.1 →
          res st pe.1 ≠ res st n) ∧
        st.pc n = dwFold st n (st.parentedges n) (seedPC st n)) →
      downwardRun st D = st := by
  intro D
  induction D with
  | nil => intro st _ _; rfl
  | cons n rest ih =>
    intro st hptr hfix
    have hresn : res st n = n := by
      unfold res; rw [hptr n (List.mem_cons_self _ _)]; rfl
    have hstep : downwardStep st n = st := by
      by_cases hroot : isRoot st n
      · unfold downwardStep; rw [if_pos hroot]
      · rw [downwardStep_eq st n hroot (hfix n (List.mem_cons_self _ _) hroot).1,
          ← (hfix n (List.mem_cons_self _ _) hroot).2]
        show { st with pc := Function.update st.pc (res st n) (st.pc n) } = st
        rw [hresn, Function.update_eq_self]
    show downwardRun (downwardStep st n) rest = st
    rw [hstep]
    exact ih st (fun m hm => hptr m (List.mem_cons_of_mem _ hm))
      (fun m hm => hfix m (List.mem_cons_of_mem _ hm))

/-- Idempotence of the downward pass over an unchanged graph. -/
lemma downward_idem (st : St) (D : List Nat) (h : DownHyp st D) :
    downwardRun (downwardRun st D) D = downwardRun st D := by
  obtain ⟨⟨hkind, hptr, hpe, hmem, htc, hdep, hnodes⟩, hframe, hvals⟩ :=
    downwardRun_char D st h
  apply downwardRun_fix
  · intro n hn
    rw [hptr]
    exact h.2.2.1 n hn
  · intro n hn hrootF
    have hroot : ¬ isRoot st n := by
      unfold isRoot at hrootF ⊢; rw [hkind] at hrootF; exact hrootF
    have hresn : res st n = n := by
      unfold res; rw [h.2.2.1 n hn]; rfl
    constructor
    · intro pe hpeF h1 h2
      rw [show (downwardRun st D).parentedges n = st.parentedges n from
        congrFun hpe n] at hpeF
      have h1s : isCBB st pe.1 := by
        unfold isCBB at h1 ⊢; rw [hkind] at h1; exact h1
      have h2s : n ∈ st.members pe.1 := by
        rw [show (downwardRun st D).members pe.1 = st.members pe.1 from
          congrFun hmem pe.1] at h2
        exact h2
      have hlt := h.2.2.2 n hn hroot pe hpeF h1s h2s
      have hresF : ∀ m, res (downwardRun st D) m = res st m := by
        intro m; unfold res; rw [hptr]
      rw [hresF, hresF, hresn]
      intro heq
      rw [heq] at hlt
      exact lt_irrefl _ hlt
    · rw [show (downwardRun st D).parentedges n = st.parentedges n from
        congrFun hpe n]
      have hseedF : seedPC (downwardRun st D) n = seedPC st n := by
        unfold seedPC firmNodes descendantsCode
        rw [hnodes]
        congr 1
        congr 1
        apply Finset.filter_congr
        intro x _
        unfold isFirm
        rw [hkind]
      exact hseedF ▸ hvals n hn hroot

/-- C8: running the upward pass a second time on a graph unchanged since the
first run yields a state identical to the state after the first run — in
particular identical topcandidates for every bundle; likewise the downward
pass run twice yields identical parentcandidates for every non-root node. -/
theorem claim8_passes_idempotent (st : St) (L : List Nat) (h : UpHyp st L)
    (st2 : St) (D : List Nat) (h2 : DownHyp st2 D) :
    upwardRun (upwardRun st L) L = upwardRun st L ∧
    downwardRun (downwardRun st2 D) D = downwardRun st2 D :=
  ⟨upward_idem st L h, downward_idem st2 D h2⟩

/-!
## Edge construction (FUDGNode.add_child and helpers)

The methods below mirror graph.py lines 58-112 and 180-229.  Mutations are
performed in source order; in particular FUDGNode.add_child inserts the new
child into the children set and the childedges set of the parent before the
reachability check, so a CycleError leaves those two insertions behind.
-/

/-- Deterministic enumeration of a finite set of node identifiers, used
wherever the source iterates over a Python set whose iteration order is
unspecified; every iteration below is order-insensitive in value, so the
sorted enumeration is a faithful model. -/
def fList (s : Finset Nat) : List Nat :=
  Quot.liftOn s.val (fun l => List.insertionSort (fun a b => a ≤ b) l)
    (fun l1 l2 h => List.eq_of_perm_of_sorted
      (((List.perm_insertionSort _ l1).trans h).trans
        (List.perm_insertionSort _ l2).symm)
      (List.sorted_insertionSort _ l1) (List.sorted_insertionSort _ l2))

lemma mem_fList (s : Finset Nat) (n : Nat) : n ∈ fList s ↔ n ∈ s := by
  rcases s with ⟨m, hm⟩
  induction m using Quotient.inductionOn with
  | _ l =>
    show n ∈ List.insertionSort (fun a b => a ≤ b) l ↔ _
    rw [(List.perm_insertionSort (fun a b => a ≤ b) l).mem_iff]
    rfl

/-- Insertion into a list that models a Python set: no duplicate entries,
new entries appended. -/
def listIns {α : Type} [DecidableEq α] (x : α) (l : List α) : List α :=
  if x ∈ l then l else l ++ [x]

/-- Recursive reachability along child edges, the function reachable of
graph.py: no visited set, so the source terminates only on acyclic graphs;
fuel bounds the recursion depth here.  With fuel at least the length of the
longest child path the result agrees with the source. -/
def reachableF (st : St) : Nat → Nat → Nat → Bool
  | 0, n1, n2 => n1 == n2
  | fuel + 1, n1, n2 =>
    n1 == n2 || (fList (st.children n1)).any (fun ch => reachableF st fuel ch n2)

/-- Mutation performed by TreeNode.add_child plus the childedges insertion of
FUDGNode.add_child: the parent-side half of the edge. -/
def chAdd (st : St) (p c : Nat) (lbl : Option EdgeLabel) : St :=
  { st with
    children := Function.update st.children p (insert c (st.children p)),
    childedges := Function.update st.childedges p (listIns (c, lbl) (st.childedges p)) }

/-- Child-side half of the edge: parentedges and parents insertions of
FUDGNode.add_child. -/
def peAdd (st : St) (c p : Nat) (lbl : Option EdgeLabel) : St :=
  { st with
    parentedges := Function.update st.parentedges c (listIns (p, lbl) (st.parentedges c)),
    parents := Function.update st.parents c (insert p (st.parents c)) }

/-- Recursive height raise _setMinHeight: if the (forwarded) height of n is
below h it is written and the increase propagates to every parent.  The
per-parent name assertion of the source is value-irrelevant and omitted. -/
def setMinHeight : Nat → St → Nat → Nat → St
  | 0, st, _, _ => st
  | fuel + 1, st, n, h =>
    if heightR st n < h then
      (fList ((heightW st n h).parents n)).foldl
        (fun s p => setMinHeight fuel s p (h + 1)) (heightW st n h)
    else st

/-- Recursive depth raise _setMinDepth, propagating to every child. -/
def setMinDepth : Nat → St → Nat → Int → St
  | 0, st, _, _ => st
  | fuel + 1, st, n, d =>
    if depthR st n < d then
      (fList ((depthW st n d).children n)).foldl
        (fun s c => setMinDepth fuel s c (d + 1)) (depthW st n d)
    else st

/-- Fragment union, Fragment.__or__: when the two fragments differ, the roots
and nodes of the child fragment are merged into the parent fragment and
every node of the absorbed fragment is re-pointed. -/
def mergeFrag (st : St) (p c : Nat) : St :=
  if st.frag p = st.frag c then st
  else
    { st with
      fragRoots := Function.update st.fragRoots (st.frag p)
        (st.fragRoots (st.frag p) ∪ st.fragRoots (st.frag c)),
      fragNodes := Function.update st.fragNodes (st.frag p)
        (st.fragNodes (st.frag p) ∪ st.fragNodes (st.frag c)),
      frag := fun m => if m ∈ st.fragNodes (st.frag c) then st.frag p else st.frag m }

/-- Removal of the child from the root set of the merged fragment
(self.frag.roots -= the child singleton). -/
def rootsRemove (st : St) (p c : Nat) : St :=
  { st with
    fragRoots := Function.update st.fragRoots (st.frag p)
      (st.fragRoots (st.frag p) \ {c}) }

/-- Reset of the depth of every node of the fragment of p to -1, through the
forwarded depth write. -/
def resetDepths (st : St) (p : Nat) : St :=
  (fList (st.fragNodes (st.frag p))).foldl (fun s m => depthW s m (-1)) st

/-- Re-derivation of depths from the root set of the fragment of p. -/
def setDepthsFromRoots (fuel : Nat) (st : St) (p : Nat) : St :=
  (fList (st.fragRoots (st.frag p))).foldl (fun s r => setMinDepth fuel s r 0) st

/-- Core of FUDGNode.add_child, mirroring graph.py lines 73-95 in source
order: name assertion, root assertion, children and childedges insertion,
cycle check (raising after those insertions), parent-side insertion, height
raise, fragment merge, root removal, depth reset and re-derivation. -/
def addChildCore (fuel : Nat) (st : St) (p c : Nat) (lbl : Option EdgeLabel) :
    St × Option Err :=
  if st.name p = st.name c then (st, some Err.invariantViolation)
  else if isRoot st c ∧ ¬(isCBB st p ∧ lbl ≠ none) then
    (st, some Err.invariantViolation)
  else if reachableF (chAdd st p c lbl) fuel c p = true then
    (chAdd st p c lbl, some Err.cycleError)
  else
    (setDepthsFromRoots fuel
      (resetDepths
        (rootsRemove
          (mergeFrag
            (setMinHeight fuel (peAdd (chAdd st p c lbl) c p lbl) p
              (heightR (peAdd (chAdd st p c lbl) c p lbl) c + 1)) p c) p c) p) p,
     none)

/-- Externalchildren insertion performed by the CBBNode.add_child override
before it delegates to FUDGNode.add_child; the identity on firm parents. -/
def extPre (st : St) (p c : Nat) : St :=
  if isCBB st p then
    { st with
      externalchildren := Function.update st.externalchildren p
        (insert c (st.externalchildren p)) }
  else st

/-- Dynamic dispatch of add_child: CBB parents go through the CBBNode
override, firm parents directly through FUDGNode.add_child. -/
def addChildD (fuel : Nat) (st : St) (p c : Nat) (lbl : Option EdgeLabel) :
    St × Option Err :=
  addChildCore fuel (extPre st p c) p c lbl

/-- CBBNode.add_member: insert into members, handle the designated top (the
source asserts that no top is recorded yet, whatever node it is), then
delegate to FUDGNode.add_child with label top or unspec. -/
def addMember (fuel : Nat) (st : St) (b node : Nat) (specTop : Bool) :
    St × Option Err :=
  let st1 := { st with
    members := Function.update st.members b (insert node (st.members b)) }
  if specTop then
    if (st1.top b).isSome then (st1, some Err.invariantViolation)
    else addChildCore fuel
      { st1 with top := Function.update st1.top b (some node) }
      b node (some EdgeLabel.top)
  else addChildCore fuel st1 b node (some EdgeLabel.unspec)

/-- Absorption loop of become_pointer: node.add_child(c) for every external
child of the alias, with the first raised error propagating out. -/
def foldAddChildren (fuel : Nat) (p : Nat) : St → List Nat → St × Option Err
  | st, [] => (st, none)
  | st, c :: rest =>
    match addChildD fuel st p c none with
    | (st1, none) => foldAddChildren fuel p st1 rest
    | (st1, some e) => (st1, some e)

/-- CBBNode.become_pointer, graph.py lines 191-209: assert the target is a
CBB with identical members and a compatible top, reconcile tops, adopt the
maximum height and depth, absorb the external children of the alias through
ordinary add_child calls, then re-point the topology fields of the alias to
the canonical sets and record the forwarding pointer.  The source re-points
by sharing the set objects; this value-level embedding copies the sets at
the merge point, which agrees with the source at the merge and stays
faithful for every per-bundle observation made by the theorems below.
The definition becomePointer below assembles the phases.  Top
reconciliation: when the canonical bundle has no designated top it adopts
the one of the alias, otherwise the alias adopts the canonical one (the
compatibility assertion has already passed). -/
def bpTop (st : St) (self node : Nat) : St :=
  if st.top node = none
  then { st with top := Function.update st.top node (st.top self) }
  else { st with top := Function.update st.top self (st.top node) }

/-- Height adoption of become_pointer: the canonical bundle takes the
maximum of the two forwarded heights. -/
def bpHeight (st : St) (self node : Nat) : St :=
  heightW st node (max (heightR st self) (heightR st node))

/-- Depth adoption of become_pointer. -/
def bpDepth (st : St) (self node : Nat) : St :=
  depthW st node (max (depthR st self) (depthR st node))

/-- Preparation phase of become_pointer: top reconciliation, then height and
depth adoption, in source order. -/
def bpPrep (st : St) (self node : Nat) : St :=
  bpDepth (bpHeight (bpTop st self node) self node) self node

/-- Re-pointing phase of become_pointer: the topology fields of the alias
are replaced by the canonical sets and the forwarding pointer is recorded.
The source shares the set objects between the two bundles; this value-level
embedding copies them, which agrees at the merge point and keeps every
per-bundle observation of the theorems below faithful. -/
def bpAlias (st : St) (self node : Nat) : St :=
  { st with
    externalchildren := Function.update st.externalchildren self
      (st.externalchildren node),
    members := Function.update st.members self (st.members node),
    children := Function.update st.children self (st.children node),
    parents := Function.update st.parents self (st.parents node),
    childedges := Function.update st.childedges self (st.childedges node),
    parentedges := Function.update st.parentedges self (st.parentedges node),
    pointerto := Function.update st.pointerto self (some node) }

def becomePointer (fuel : Nat) (st : St) (self node : Nat) : St × Option Err :=
  if ¬ isCBB st node then (st, some Err.invariantViolation)
  else if ¬ (st.members node = st.members self) then (st, some Err.invariantViolation)
  else if (st.top node).isSome ∧ (st.top self).isSome ∧ st.top node ≠ st.top self then
    (st, some Err.invariantViolation)
  else
    match foldAddChildren fuel node (bpPrep st self node)
        (fList (st.externalchildren self)) with
    | (st4, some e) => (st4, some e)
    | (st4, none) => (bpAlias st4 self node, none)

/-!
## Frame lemmas for the height / depth / fragment tail of add_child

The tail of a successful add_child (height raise, fragment merge, depth
recomputation) touches only the height, depth and fragment fields.  CoreView
collects every other field; the lemmas below show the tail preserves it.
-/

/-- View of the state without its height, depth and fragment fields. -/
structure CoreView where
  kind : Nat → Kind
  name : Nat → String
  children : Nat → Finset Nat
  childedges : Nat → List (Nat × Option EdgeLabel)
  parents : Nat → Finset Nat
  parentedges : Nat → List (Nat × Option EdgeLabel)
  members : Nat → Finset Nat
  externalchildren : Nat → Finset Nat
  top : Nat → Option Nat
  pointerto : Nat → Option Nat
  tc : Nat → Finset Nat
  pc : Nat → Finset Nat
  nodes : Finset Nat

/-- Projection of a state to its CoreView. -/
def coreView (st : St) : CoreView :=
  ⟨st.kind, st.name, st.children, st.childedges, st.parents, st.parentedges,
   st.members, st.externalchildren, st.top, st.pointerto, st.tc, st.pc, st.nodes⟩

lemma coreView_foldl {α : Type} (g : St → α → St)
    (hg : ∀ s a, coreView (g s a) = coreView s) :
    ∀ (l : List α) (s : St), coreView (l.foldl g s) = coreView s := by
  intro l
  induction l with
  | nil => intro s; rfl
  | cons a rest ih =>
    intro s
    show coreView (rest.foldl g (g s a)) = coreView s
    rw [ih (g s a), hg s a]

lemma coreView_setMinHeight :
    ∀ (fuel : Nat) (st : St) (n : Nat) (h : Nat),
      coreView (setMinHeight fuel st n h) = coreView st := by
  intro fuel
  induction fuel with
  | zero => intro st n h; rfl
  | succ k ih =>
    intro st n h
    show coreView (if heightR st n < h then _ else st) = coreView st
    split
    · exact coreView_foldl _ (fun s p => ih s p (h + 1)) _ _
    · rfl

lemma coreView_setMinDepth :
    ∀ (fuel : Nat) (st : St) (n : Nat) (d : Int),
      coreView (setMinDepth fuel st n d) = coreView st := by
  intro fuel
  induction fuel with
  | zero => intro st n d; rfl
  | succ k ih =>
    intro st n d
    show coreView (if depthR st n < d then _ else st) = coreView st
    split
    · exact coreView_foldl _ (fun s c => ih s c (d + 1)) _ _
    · rfl

lemma coreView_mergeFrag (st : St) (p c : Nat) :
    coreView (mergeFrag st p c) = coreView st := by
  unfold mergeFrag
  split
  · rfl
  · rfl

lemma coreView_rootsRemove (st : St) (p c : Nat) :
    coreView (rootsRemove st p c) = coreView st := rfl

lemma coreView_resetDepths (st : St) (p : Nat) :
    coreView (resetDepths st p) = coreView st :=
  coreView_foldl (fun s m => depthW s m (-1)) (fun _ _ => rfl) _ _

lemma coreView_setDepthsFromRoots (fuel : Nat) (st : St) (p : Nat) :
    coreView (setDepthsFromRoots fuel st p) = coreView st :=
  coreView_foldl (fun s r => setMinDepth fuel s r 0)
    (fun s r => coreView_setMinDepth fuel s r 0) _ _

/-- CoreView of the final state of the successful add_child tail. -/
lemma coreView_tail (fuel : Nat) (st : St) (p c : Nat) :
    coreView (setDepthsFromRoots fuel
      (resetDepths (rootsRemove (mergeFrag (setMinHeight fuel st p
        (heightR st c + 1)) p c) p c) p) p) = coreView st := by
  rw [coreView_setDepthsFromRoots, coreView_resetDepths, coreView_rootsRemove,
    coreView_mergeFrag, coreView_setMinHeight]

lemma extPre_views (st : St) (p c : Nat) :
    (extPre st p c).kind = st.kind ∧ (extPre st p c).name = st.name ∧
    (extPre st p c).children = st.children ∧
    (extPre st p c).childedges = st.childedges ∧
    (extPre st p c).parents = st.parents ∧
    (extPre st p c).parentedges = st.parentedges ∧
    (extPre st p c).members = st.members ∧
    (extPre st p c).top = st.top ∧
    (extPre st p c).pointerto = st.pointerto ∧
    (extPre st p c).height = st.height ∧
    (extPre st p c).depth = st.depth ∧
    (extPre st p c).frag = st.frag ∧
    (extPre st p c).fragRoots = st.fragRoots ∧
    (extPre st p c).fragNodes = st.fragNodes ∧
    (extPre st p c).tc = st.tc ∧ (extPre st p c).pc = st.pc ∧
    (extPre st p c).nodes = st.nodes := by
  unfold extPre
  split
  · exact ⟨rfl, rfl, rfl, rfl, rfl, rfl, rfl, rfl, rfl, rfl, rfl, rfl, rfl, rfl,
      rfl, rfl, rfl⟩
  · exact ⟨rfl, rfl, rfl, rfl, rfl, rfl, rfl, rfl, rfl, rfl, rfl, rfl, rfl, rfl,
      rfl, rfl, rfl⟩

/-- Externalchildren field of the CBB add_child pre-step. -/
lemma extPre_ext (st : St) (p c : Nat) :
    (extPre st p c).externalchildren
      = (if isCBB st p
          then Function.update st.externalchildren p (insert c (st.externalchildren p))
          else st.externalchildren) := by
  unfold extPre
  split
  · rfl
  · rfl

/-- Result of addChildCore on the invariant checks alone: the returned error
is an InvariantViolation exactly when the name check or the root check
fires. -/
lemma addChildCore_snd_iv_iff (fuel : Nat) (st : St) (p c : Nat)
    (lbl : Option EdgeLabel) :
    (addChildCore fuel st p c lbl).2 = some Err.invariantViolation ↔
      (st.name p = st.name c ∨ (isRoot st c ∧ ¬(isCBB st p ∧ lbl ≠ none))) := by
  unfold addChildCore
  split_ifs with h1 h2 h3
  · exact ⟨fun _ => Or.inl h1, fun _ => rfl⟩
  · exact ⟨fun _ => Or.inr h2, fun _ => rfl⟩
  · constructor
    · intro hx
      exact absurd (show some Err.cycleError = some Err.invariantViolation from hx)
        (by decide)
    · intro hx
      rcases hx with hx | hx
      · exact absurd hx h1
      · exact absurd hx h2
  · constructor
    · intro hx
      exact hx.elim
    · intro hx
      rcases hx with hx | hx
      · exact absurd hx h1
      · exact absurd hx h2

/-- Successful addChildCore: returns no error and its final state agrees on
every field outside height, depth and fragments with the state obtained from
the parent-side and child-side edge insertions. -/
lemma addChildCore_of_success (fuel : Nat) (st : St) (p c : Nat)
    (lbl : Option EdgeLabel) (h : (addChildCore fuel st p c lbl).2 = none) :
    coreView (addChildCore fuel st p c lbl).1
      = coreView (peAdd (chAdd st p c lbl) c p lbl) := by
  unfold addChildCore at h ⊢
  split_ifs at h ⊢ with h1 h2 h3
  exact coreView_tail fuel (peAdd (chAdd st p c lbl) c p lbl) p c

lemma mem_listIns {α : Type} [DecidableEq α] (x : α) (l : List α) :
    x ∈ listIns x l := by
  unfold listIns
  split
  · assumption
  · exact List.mem_append.mpr (Or.inr (List.mem_singleton.mpr rfl))

/-- Cycle-detecting addChildCore: the returned state is exactly the one with
the parent-side insertions already performed. -/
lemma addChildCore_of_cycle (fuel : Nat) (st : St) (p c : Nat)
    (lbl : Option EdgeLabel)
    (h1 : st.name p ≠ st.name c)
    (h2 : ¬(isRoot st c ∧ ¬(isCBB st p ∧ lbl ≠ none)))
    (h3 : reachableF (chAdd st p c lbl) fuel c p = true) :
    addChildCore fuel st p c lbl = (chAdd st p c lbl, some Err.cycleError) := by
  unfold addChildCore
  rw [if_neg h1, if_neg h2, if_pos h3]

/-- C5 corrected: when the child already reaches the parent, add_child fails
with a CycleError, and at that point the parent-side halves of the edge have
already been inserted — the children set and the childedges set of the
parent (and, for a CBB parent, its externalchildren) contain the new entry —
while the parents, parentedges, heights, depths and all fragment data are
exactly as before the call.  The check condition itself (the child reaches
the parent along existing child edges) matches the claim; the claimed full
atomicity does not hold, because the source checks only after the two
parent-side insertions. -/
theorem claim5_cycle_error_state (fuel : Nat) (st : St) (p c : Nat)
    (lbl : Option EdgeLabel)
    (hname : st.name p ≠ st.name c)
    (hroot : ¬(isRoot st c ∧ ¬(isCBB st p ∧ lbl ≠ none)))
    (hcyc : reachableF (chAdd (extPre st p c) p c lbl) fuel c p = true) :
    addChildD fuel st p c lbl = (chAdd (extPre st p c) p c lbl, some Err.cycleError) ∧
    (chAdd (extPre st p c) p c lbl).parents = st.parents ∧
    (chAdd (extPre st p c) p c lbl).parentedges = st.parentedges ∧
    (chAdd (extPre st p c) p c lbl).height = st.height ∧
    (chAdd (extPre st p c) p c lbl).depth = st.depth ∧
    (chAdd (extPre st p c) p c lbl).frag = st.frag ∧
    (chAdd (extPre st p c) p c lbl).fragRoots = st.fragRoots ∧
    (chAdd (extPre st p c) p c lbl).fragNodes = st.fragNodes ∧
    c ∈ (chAdd (extPre st p c) p c lbl).children p ∧
    (c, lbl) ∈ (chAdd (extPre st p c) p c lbl).childedges p := by
  have hv := extPre_views st p c
  refine ⟨?_, ?_, ?_, ?_, ?_, ?_, ?_, ?_, ?_, ?_⟩
  · unfold addChildD
    apply addChildCore_of_cycle fuel (extPre st p c) p c lbl ?_ ?_ hcyc
    · rw [hv.2.1]
      exact hname
    · unfold isRoot isCBB
      rw [hv.1]
      exact hroot
  · exact hv.2.2.2.2.1
  · exact hv.2.2.2.2.2.1
  · exact hv.2.2.2.2.2.2.2.2.2.1
  · exact hv.2.2.2.2.2.2.2.2.2.2.1
  · exact hv.2.2.2.2.2.2.2.2.2.2.2.1
  · exact hv.2.2.2.2.2.2.2.2.2.2.2.2.1
  · exact hv.2.2.2.2.2.2.2.2.2.2.2.2.2.1
  · show c ∈ Function.update (extPre st p c).children p
      (insert c ((extPre st p c).children p)) p
    rw [Function.update_same]
    exact Finset.mem_insert_self c _
  · show (c, lbl) ∈ Function.update (extPre st p c).childedges p
      (listIns (c, lbl) ((extPre st p c).childedges p)) p
    rw [Function.update_same]
    exact mem_listIns _ _

/-- C6 corrected: add_child fails with an InvariantViolation exactly when
the parent and child share a name, or the child is the Root and the parent
is not a Bundle inserting it under a membership label (top or unspec).  The
source accepts the Root as an unspec member of a bundle, not only as its
designated top: the assertion requires only a non-None label. -/
theorem claim6_invariant_violation_iff (fuel : Nat) (st : St) (p c : Nat)
    (lbl : Option EdgeLabel) :
    (addChildD fuel st p c lbl).2 = some Err.invariantViolation ↔
      (st.name p = st.name c ∨ (isRoot st c ∧ ¬(isCBB st p ∧ lbl ≠ none))) := by
  have hv := extPre_views st p c
  unfold addChildD
  rw [addChildCore_snd_iv_iff]
  unfold isRoot isCBB
  rw [hv.1, hv.2.1]

/-- C7 corrected: addMember inserts the node into the members of the bundle
and delegates to add_child with label top (for a designated top) or unspec;
with isSpecifiedTop set, the duplicate-top check fails exactly when the
bundle already records any designated top — even when it is the same node —
and otherwise the node is recorded as the bundle top; on success the edge
with the corresponding label is present.  Delegation can still fail on its
own checks, which the name hypothesis and the success hypotheses of the
last two parts exclude. -/
theorem claim7_add_member (fuel : Nat) (st : St) (b node : Nat)
    (hb : isCBB st b) (hname : st.name b ≠ st.name node) :
    ((st.top b).isSome →
      addMember fuel st b node true
        = ({ st with
             members := Function.update st.members b (insert node (st.members b)) },
           some Err.invariantViolation)) ∧
    (st.top b = none →
      addMember fuel st b node true
        = addChildCore fuel
            { st with
              members := Function.update st.members b (insert node (st.members b)),
              top := Function.update st.top b (some node) }
            b node (some EdgeLabel.top)) ∧
    (addMember fuel st b node false
      = addChildCore fuel
          { st with
            members := Function.update st.members b (insert node (st.members b)) }
          b node (some EdgeLabel.unspec)) ∧
    ((addMember fuel st b node true).2 = some Err.invariantViolation ↔
      (st.top b).isSome) ∧
    ((addMember fuel st b node true).2 = none →
      ((addMember fuel st b node true).1.top b = some node ∧
       node ∈ (addMember fuel st b node true).1.members b ∧
       node ∈ (addMember fuel st b node true).1.children b ∧
       (node, some EdgeLabel.top) ∈ (addMember fuel st b node true).1.childedges b)) ∧
    ((addMember fuel st b node false).2 = none →
      ((addMember fuel st b node false).1.top = st.top ∧
       node ∈ (addMember fuel st b node false).1.members b ∧
       node ∈ (addMember fuel st b node false).1.children b ∧
       (node, some EdgeLabel.unspec) ∈
         (addMember fuel st b node false).1.childedges b)) := by
  set memSt : St := { st with
    members := Function.update st.members b (insert node (st.members b)) }
    with hmemSt
  set topSt : St := { st with
      members := Function.update st.members b (insert node (st.members b)),
      top := Function.update st.top b (some node) } with htopSt
  have e1 : addMember fuel st b node true
      = (if (st.top b).isSome = true then (memSt, some Err.invariantViolation)
         else addChildCore fuel topSt b node (some EdgeLabel.top)) := rfl
  have e2 : addMember fuel st b node false
      = addChildCore fuel memSt b node (some EdgeLabel.unspec) := rfl
  have hnotiv : ∀ (s : St) (lbl : Option EdgeLabel), s.name = st.name →
      s.kind = st.kind → lbl ≠ none →
      (addChildCore fuel s b node lbl).2 ≠ some Err.invariantViolation := by
    intro s lbl hn hk hlbl hx
    rcases (addChildCore_snd_iv_iff fuel s b node lbl).mp hx with hx | hx
    · rw [hn] at hx
      exact hname hx
    · refine hx.2 ⟨?_, hlbl⟩
      unfold isCBB
      rw [hk]
      exact hb
  refine ⟨?_, ?_, e2, ?_, ?_, ?_⟩
  · intro hsome
    rw [e1, if_pos hsome]
  · intro hnone
    rw [e1, if_neg (by rw [hnone]; exact Bool.false_ne_true)]
  · rw [e1]
    by_cases hsome : (st.top b).isSome
    · rw [if_pos hsome]
      exact iff_of_true rfl hsome
    · rw [if_neg hsome]
      exact iff_of_false (hnotiv topSt (some EdgeLabel.top) rfl rfl (by simp)) hsome
  · intro hnone
    have hns : ¬ (st.top b).isSome = true := by
      intro hsome
      rw [e1, if_pos hsome] at hnone
      exact Option.noConfusion hnone
    have e3 : addMember fuel st b node true
        = addChildCore fuel topSt b node (some EdgeLabel.top) := by
      rw [e1, if_neg hns]
    rw [e3] at hnone ⊢
    have hc := addChildCore_of_success fuel topSt b node (some EdgeLabel.top) hnone
    have htop : (addChildCore fuel topSt b node (some EdgeLabel.top)).1.top
        = topSt.top := congrArg CoreView.top hc
    have hmem : (addChildCore fuel topSt b node (some EdgeLabel.top)).1.members
        = topSt.members := congrArg CoreView.members hc
    have hchl : (addChildCore fuel topSt b node (some EdgeLabel.top)).1.children
        = Function.update topSt.children b (insert node (topSt.children b)) :=
      congrArg CoreView.children hc
    have hche : (addChildCore fuel topSt b node (some EdgeLabel.top)).1.childedges
        = Function.update topSt.childedges b
            (listIns (node, some EdgeLabel.top) (topSt.childedges b)) :=
      congrArg CoreView.childedges hc
    refine ⟨?_, ?_, ?_, ?_⟩
    · rw [htop]
      show Function.update st.top b (some node) b = some node
      rw [Function.update_same]
    · rw [hmem]
      show node ∈ Function.update st.members b (insert node (st.members b)) b
      rw [Function.update_same]
      exact Finset.mem_insert_self node _
    · rw [hchl, Function.update_same]
      exact Finset.mem_insert_self node _
    · rw [hche, Function.update_same]
      exact mem_listIns _ _
  · intro hnone
    rw [e2] at hnone ⊢
    have hc := addChildCore_of_success fuel memSt b node (some EdgeLabel.unspec) hnone
    have htop : (addChildCore fuel memSt b node (some EdgeLabel.unspec)).1.top
        = memSt.top := congrArg CoreView.top hc
    have hmem : (addChildCore fuel memSt b node (some EdgeLabel.unspec)).1.members
        = memSt.members := congrArg CoreView.members hc
    have hchl : (addChildCore fuel memSt b node (some EdgeLabel.unspec)).1.children
        = Function.update memSt.children b (insert node (memSt.children b)) :=
      congrArg CoreView.children hc
    have hche : (addChildCore fuel memSt b node (some EdgeLabel.unspec)).1.childedges
        = Function.update memSt.childedges b
            (listIns (node, some EdgeLabel.unspec) (memSt.childedges b)) :=
      congrArg CoreView.childedges hc
    refine ⟨htop, ?_, ?_, ?_⟩
    · rw [hmem]
      show node ∈ Function.update st.members b (insert node (st.members b)) b
      rw [Function.update_same]
      exact Finset.mem_insert_self node _
    · rw [hchl, Function.update_same]
      exact Finset.mem_insert_self node _
    · rw [hche, Function.update_same]
      exact mem_listIns _ _

/-!
## Alias forwarding (claim C4)

The pointer map is established once by become_pointer and preserved by every
later operation; reads and writes of the four forwarded attributes through
an alias and through its canonical bundle are interchangeable.
-/

lemma upwardBody_pointerto (n : Nat) :
    ∀ (edges : List (Nat × Option EdgeLabel)) (st : St),
      (upwardBody st n edges).pointerto = st.pointerto := by
  intro edges
  induction edges with
  | nil => intro st; rfl
  | cons ce rest ih =>
    intro st
    obtain ⟨c, e⟩ := ce
    match e with
    | some EdgeLabel.top => rfl
    | some EdgeLabel.unspec => exact ih (tcWrite st n (tcRead st n ∪ childContrib st c))
    | none => exact ih st

lemma upwardRun_pointerto :
    ∀ (L : List Nat) (st : St), (upwardRun st L).pointerto = st.pointerto := by
  intro L
  induction L with
  | nil => intro st; rfl
  | cons n rest ih =>
    intro st
    show (upwardRun (upwardStep st n) rest).pointerto = st.pointerto
    rw [ih]
    unfold upwardStep
    split
    · exact upwardBody_pointerto n (st.childedges n) (tcWrite st n ∅)
    · rfl

lemma downwardBody_pointerto (n : Nat) :
    ∀ (pes : List (Nat × Option EdgeLabel)) (st : St),
      (downwardBody st n pes).pointerto = st.pointerto := by
  intro pes
  induction pes with
  | nil => intro st; rfl
  | cons pe rest ih =>
    intro st
    obtain ⟨p, e⟩ := pe
    exact ih (pcWrite st n (pcRead st n ∩ dwConstraint st n p))

lemma downwardRun_pointerto :
    ∀ (D : List Nat) (st : St), (downwardRun st D).pointerto = st.pointerto := by
  intro D
  induction D with
  | nil => intro st; rfl
  | cons n rest ih =>
    intro st
    show (downwardRun (downwardStep st n) rest).pointerto = st.pointerto
    rw [ih]
    unfold downwardStep
    split
    · rfl
    · exact downwardBody_pointerto n (st.parentedges n) (pcWrite st n (seedPC st n))

lemma addChildD_pointerto (fuel : Nat) (st : St) (p c : Nat)
    (lbl : Option EdgeLabel) :
    (addChildD fuel st p c lbl).1.pointerto = st.pointerto := by
  have hv := extPre_views st p c
  unfold addChildD addChildCore
  split_ifs with h1 h2 h3
  · exact hv.2.2.2.2.2.2.2.2.1
  · exact hv.2.2.2.2.2.2.2.2.1
  · exact hv.2.2.2.2.2.2.2.2.1
  · have hc := coreView_tail fuel (peAdd (chAdd (extPre st p c) p c lbl) c p lbl) p c
    have := congrArg CoreView.pointerto hc
    exact this.trans hv.2.2.2.2.2.2.2.2.1

lemma addMember_pointerto (fuel : Nat) (st : St) (b node : Nat) (sp : Bool) :
    (addMember fuel st b node sp).1.pointerto = st.pointerto := by
  have hcore : ∀ (s : St) (lbl : Option EdgeLabel),
      (addChildCore fuel s b node lbl).1.pointerto = s.pointerto := by
    intro s lbl
    unfold addChildCore
    split_ifs with h1 h2 h3
    · rfl
    · rfl
    · rfl
    · exact congrArg CoreView.pointerto
        (coreView_tail fuel (peAdd (chAdd s b node lbl) node b lbl) b node)
  cases sp with
  | false => exact hcore _ _
  | true =>
    show (if (st.top b).isSome = true then _ else _ : St × Option Err).1.pointerto
      = st.pointerto
    split
    · rfl
    · exact hcore _ _

/-- Success of become_pointer records the forwarding pointer on the alias. -/
lemma becomePointer_success_ptr (fuel : Nat) (st : St) (self node : Nat)
    (h : (becomePointer fuel st self node).2 = none) :
    (becomePointer fuel st self node).1.pointerto self = some node := by
  unfold becomePointer at h ⊢
  split_ifs at h ⊢ with h1 h2 h3
  rcases hfold : foldAddChildren fuel node (bpPrep st self node)
      (fList (st.externalchildren self)) with ⟨st4, oe⟩
  rw [hfold] at h
  cases oe with
  | some e => exact Option.noConfusion h
  | none =>
    show (bpAlias st4 self node).pointerto self = some node
    unfold bpAlias
    show Function.update st4.pointerto self (some node) self = some node
    rw [Function.update_same]

/-- C4: after bundle unification establishes the forwarding pointer (first
conjunct), reads of topcandidates, parentcandidates, height and depth
through the alias and through the canonical bundle coincide, writes through
either produce identical states, and the pointer map — hence this agreement
— is preserved by the upward pass, the downward pass, add_child and
add_member; so the agreement holds at all later points of the pipeline. -/
theorem claim4_alias_single_source (st : St) (a b : Nat)
    (hab : st.pointerto a = some b) (hb : st.pointerto b = none) :
    (tcRead st a = tcRead st b ∧ pcRead st a = pcRead st b ∧
     heightR st a = heightR st b ∧ depthR st a = depthR st b) ∧
    ((∀ v, tcWrite st a v = tcWrite st b v) ∧
     (∀ v, pcWrite st a v = pcWrite st b v) ∧
     (∀ v, heightW st a v = heightW st b v) ∧
     (∀ v, depthW st a v = depthW st b v)) ∧
    (∀ (fuel : Nat) (st0 : St) (self node : Nat),
      (becomePointer fuel st0 self node).2 = none →
      (becomePointer fuel st0 self node).1.pointerto self = some node) ∧
    ((∀ (st0 : St) (L : List Nat), (upwardRun st0 L).pointerto = st0.pointerto) ∧
     (∀ (st0 : St) (D : List Nat), (downwardRun st0 D).pointerto = st0.pointerto) ∧
     (∀ (fuel : Nat) (st0 : St) (p c : Nat) (lbl : Option EdgeLabel),
       (addChildD fuel st0 p c lbl).1.pointerto = st0.pointerto) ∧
     (∀ (fuel : Nat) (st0 : St) (b0 n0 : Nat) (sp : Bool),
       (addMember fuel st0 b0 n0 sp).1.pointerto = st0.pointerto)) := by
  have hra : res st a = b := by unfold res; rw [hab]; rfl
  have hrb : res st b = b := by unfold res; rw [hb]; rfl
  refine ⟨⟨?_, ?_, ?_, ?_⟩, ⟨?_, ?_, ?_, ?_⟩, becomePointer_success_ptr, ?_, ?_, ?_, ?_⟩
  · unfold tcRead; rw [hra, hrb]
  · unfold pcRead; rw [hra, hrb]
  · unfold heightR; rw [hra, hrb]
  · unfold depthR; rw [hra, hrb]
  · intro v; unfold tcWrite; rw [hra, hrb]
  · intro v; unfold pcWrite; rw [hra, hrb]
  · intro v; unfold heightW; rw [hra, hrb]
  · intro v; unfold depthW; rw [hra, hrb]
  · exact fun st0 L => upwardRun_pointerto L st0
  · exact fun st0 D => downwardRun_pointerto D st0
  · exact fun fuel st0 p c lbl => addChildD_pointerto fuel st0 p c lbl
  · exact fun fuel st0 b0 n0 sp => addMember_pointerto fuel st0 b0 n0 sp

/-!
## The bundle children invariant (claim C10)

For every CBB node, the children set equals the union of members and
externalchildren: established by the CBBNode constructor and preserved by
every successful add_member, add_child and become_pointer.
-/

/-- Invariant of a CBB node b: children b = members b with the external
children unioned in, exactly the sets CBBNode.__init__ wires together. -/
def cbbInv (st : St) (b : Nat) : Prop :=
  st.children b = st.members b ∪ st.externalchildren b

instance (st : St) (b : Nat) : Decidable (cbbInv st b) := by
  unfold cbbInv; infer_instance

/-- CBBNode.__init__ (together with the inherited FUDGNode and TreeNode
constructors): a fresh bundle with the given members, external children and
optional top; its children set is initialized to members with the external
children unioned in, its fragment is a fresh singleton. -/
def mkCBB (st : St) (i : Nat) (nm : String) (mem exch : Finset Nat)
    (tp : Option Nat) (fid : Nat) : St :=
  { st with
    kind := Function.update st.kind i Kind.cbb,
    name := Function.update st.name i nm,
    top := Function.update st.top i tp,
    members := Function.update st.members i mem,
    externalchildren := Function.update st.externalchildren i exch,
    pointerto := Function.update st.pointerto i none,
    children := Function.update st.children i (mem ∪ exch),
    childedges := Function.update st.childedges i [],
    parentedges := Function.update st.parentedges i [],
    parents := Function.update st.parents i ∅,
    height := Function.update st.height i 0,
    depth := Function.update st.depth i (-1),
    frag := Function.update st.frag i fid,
    fragRoots := Function.update st.fragRoots fid {i},
    fragNodes := Function.update st.fragNodes fid {i} }

lemma addChildD_kind (fuel : Nat) (st : St) (p c : Nat) (lbl : Option EdgeLabel) :
    (addChildD fuel st p c lbl).1.kind = st.kind := by
  have hv := extPre_views st p c
  unfold addChildD addChildCore
  split_ifs with h1 h2 h3
  · exact hv.1
  · exact hv.1
  · exact hv.1
  · have hc := coreView_tail fuel (peAdd (chAdd (extPre st p c) p c lbl) c p lbl) p c
    exact (congrArg CoreView.kind hc).trans hv.1

/-- Preservation of the bundle invariant by a successful dispatched
add_child: the CBB override inserts into externalchildren and the inherited
method inserts into children, so both sides of the invariant gain the same
element. -/
lemma addChildD_cbbInv (fuel : Nat) (st : St) (p c : Nat) (lbl : Option EdgeLabel)
    (h : (addChildD fuel st p c lbl).2 = none)
    (x : Nat) (hx : isCBB st x) (hinv : cbbInv st x) :
    cbbInv (addChildD fuel st p c lbl).1 x := by
  have hv := extPre_views st p c
  unfold addChildD at h ⊢
  have hc := addChildCore_of_success fuel (extPre st p c) p c lbl h
  have hch : (addChildCore fuel (extPre st p c) p c lbl).1.children
      = Function.update (extPre st p c).children p
          (insert c ((extPre st p c).children p)) :=
    congrArg CoreView.children hc
  have hm : (addChildCore fuel (extPre st p c) p c lbl).1.members
      = (extPre st p c).members := congrArg CoreView.members hc
  have he : (addChildCore fuel (extPre st p c) p c lbl).1.externalchildren
      = (extPre st p c).externalchildren := congrArg CoreView.externalchildren hc
  unfold cbbInv
  rw [hch, hm, he, hv.2.2.1, hv.2.2.2.2.2.2.1, extPre_ext]
  by_cases hpx : x = p
  · subst hpx
    rw [Function.update_same, if_pos hx, Function.update_same]
    unfold cbbInv at hinv
    rw [hinv, Finset.union_insert]
  · rw [Function.update_noteq hpx]
    by_cases hcbbp : isCBB st p
    · rw [if_pos hcbbp, Function.update_noteq hpx]
      exact hinv
    · rw [if_neg hcbbp]
      exact hinv

/-- Preservation of the bundle invariant by a successful add_member: the
node enters members and children together. -/
lemma addMember_cbbInv (fuel : Nat) (st : St) (b nd : Nat) (sp : Bool)
    (h : (addMember fuel st b nd sp).2 = none)
    (x : Nat) (hx : isCBB st x) (hinv : cbbInv st x) :
    cbbInv (addMember fuel st b nd sp).1 x := by
  have main : ∀ (s : St) (lbl : Option EdgeLabel),
      s.children = st.children → s.members = Function.update st.members b
        (insert nd (st.members b)) →
      s.externalchildren = st.externalchildren →
      (addChildCore fuel s b nd lbl).2 = none →
      cbbInv (addChildCore fuel s b nd lbl).1 x := by
    intro s lbl hcs hms hes hnone
    have hc := addChildCore_of_success fuel s b nd lbl hnone
    have hch : (addChildCore fuel s b nd lbl).1.children
        = Function.update s.children b (insert nd (s.children b)) :=
      congrArg CoreView.children hc
    have hm : (addChildCore fuel s b nd lbl).1.members = s.members :=
      congrArg CoreView.members hc
    have he : (addChildCore fuel s b nd lbl).1.externalchildren
        = s.externalchildren := congrArg CoreView.externalchildren hc
    unfold cbbInv
    rw [hch, hm, he, hcs, hms, hes]
    by_cases hbx : x = b
    · subst hbx
      rw [Function.update_same, Function.update_same]
      unfold cbbInv at hinv
      rw [hinv, Finset.insert_union]
    · rw [Function.update_noteq hbx, Function.update_noteq hbx]
      exact hinv
  cases sp with
  | false => exact main _ _ rfl rfl rfl h
  | true =>
    by_cases hsome : (st.top b).isSome = true
    · have e1 : addMember fuel st b nd true
          = ({ st with
               members := Function.update st.members b (insert nd (st.members b)) },
             some Err.invariantViolation) := by
        show (if (st.top b).isSome = true then _ else _ : St × Option Err) = _
        rw [if_pos hsome]
      rw [e1] at h
      exact Option.noConfusion h
    · have e3 : addMember fuel st b nd true
          = addChildCore fuel
              { st with
                members := Function.update st.members b (insert nd (st.members b)),
                top := Function.update st.top b (some nd) }
              b nd (some EdgeLabel.top) := by
        show (if (st.top b).isSome = true then _ else _ : St × Option Err) = _
        rw [if_neg hsome]
      rw [e3] at h ⊢
      exact main _ _ rfl rfl rfl h

lemma bpPrep_fields (st : St) (self node : Nat) :
    (bpPrep st self node).children = st.children ∧
    (bpPrep st self node).members = st.members ∧
    (bpPrep st self node).externalchildren = st.externalchildren ∧
    (bpPrep st self node).kind = st.kind := by
  unfold bpPrep bpDepth bpHeight bpTop
  split
  · exact ⟨rfl, rfl, rfl, rfl⟩
  · exact ⟨rfl, rfl, rfl, rfl⟩

/-- Kinds are unchanged and the invariant survives the absorption loop of
become_pointer, every absorbed edge going through the dispatched
add_child. -/
lemma foldAddChildren_char :
    ∀ (l : List Nat) (fuel p : Nat) (st : St),
      (foldAddChildren fuel p st l).1.kind = st.kind ∧
      ((foldAddChildren fuel p st l).2 = none →
        (∀ x, isCBB st x → cbbInv st x) →
        (∀ x, isCBB st x → cbbInv (foldAddChildren fuel p st l).1 x)) := by
  intro l
  induction l with
  | nil => intro fuel p st; exact ⟨rfl, fun _ hall x hx => hall x hx⟩
  | cons c rest ih =>
    intro fuel p st
    have heq : foldAddChildren fuel p st (c :: rest)
        = (match addChildD fuel st p c none with
           | (st1, none) => foldAddChildren fuel p st1 rest
           | (st1, some e) => (st1, some e)) := rfl
    rw [heq]
    rcases h1 : addChildD fuel st p c none with ⟨st1, oe⟩
    have hst1 : st1 = (addChildD fuel st p c none).1 := by rw [h1]
    have hk1 : st1.kind = st.kind := by
      rw [hst1]
      exact addChildD_kind fuel st p c none
    cases oe with
    | some e =>
      refine ⟨hk1, ?_⟩
      intro hz
      exact Option.noConfusion hz
    | none =>
      have hsucc : (addChildD fuel st p c none).2 = none := by rw [h1]
      refine ⟨(ih fuel p st1).1.trans hk1, ?_⟩
      intro hz hall x hx
      have hall1 : ∀ y, isCBB st1 y → cbbInv st1 y := by
        intro y hy
        have hys : isCBB st y := by
          unfold isCBB at hy ⊢; rw [hk1] at hy; exact hy
        have := addChildD_cbbInv fuel st p c none hsucc y hys (hall y hys)
        rw [← hst1] at this
        exact this
      have hx1 : isCBB st1 x := by
        unfold isCBB at hx ⊢; rw [hk1]; exact hx
      exact (ih fuel p st1).2 hz hall1 x hx1

/-- Preservation of the bundle invariant by a successful become_pointer: the
alias is re-pointed to the canonical sets together, so its invariant reduces
to the one of the canonical bundle. -/
lemma becomePointer_cbbInv (fuel : Nat) (st : St) (self node : Nat)
    (h : (becomePointer fuel st self node).2 = none)
    (hall : ∀ x, isCBB st x → cbbInv st x) :
    ∀ x, isCBB st x → cbbInv (becomePointer fuel st self node).1 x := by
  unfold becomePointer at h ⊢
  split_ifs at h ⊢ with h1 h2 h3
  rcases hfold : foldAddChildren fuel node (bpPrep st self node)
      (fList (st.externalchildren self)) with ⟨st4, oe⟩
  rw [hfold] at h
  cases oe with
  | some e => exact Option.noConfusion h
  | none =>
    intro x hx
    obtain ⟨hpc, hpm, hpe, hpk⟩ := bpPrep_fields st self node
    have hprep : ∀ y, isCBB (bpPrep st self node) y → cbbInv (bpPrep st self node) y := by
      intro y hy
      have hys : isCBB st y := by
        unfold isCBB at hy ⊢; rw [hpk] at hy; exact hy
      unfold cbbInv
      rw [hpc, hpm, hpe]
      exact hall y hys
    have hchar := foldAddChildren_char (fList (st.externalchildren self))
      fuel node (bpPrep st self node)
    have hst4 : st4 = (foldAddChildren fuel node (bpPrep st self node)
        (fList (st.externalchildren self))).1 := by rw [hfold]
    have hsucc : (foldAddChildren fuel node (bpPrep st self node)
        (fList (st.externalchildren self))).2 = none := by rw [hfold]
    have hk4 : st4.kind = st.kind := by
      rw [hst4]
      exact hchar.1.trans hpk
    have hinv4 : ∀ y, isCBB st4 y → cbbInv st4 y := by
      intro y hy
      have hyp : isCBB (bpPrep st self node) y := by
        unfold isCBB at hy ⊢
        rw [hpk, ← hk4]
        exact hy
      have := hchar.2 hsucc hprep y hyp
      rw [← hst4] at this
      exact this
    show cbbInv (bpAlias st4 self node) x
    unfold cbbInv bpAlias
    by_cases hxs : x = self
    · subst hxs
      show Function.update st4.children x (st4.children node) x
        = Function.update st4.members x (st4.members node) x
          ∪ Function.update st4.externalchildren x (st4.externalchildren node) x
      rw [Function.update_same, Function.update_same, Function.update_same]
      have hncbb : isCBB st4 node := by
        unfold isCBB
        rw [hk4]
        exact h1
      exact hinv4 node hncbb
    · show Function.update st4.children self (st4.children node) x
        = Function.update st4.members self (st4.members node) x
          ∪ Function.update st4.externalchildren self (st4.externalchildren node) x
      rw [Function.update_noteq hxs, Function.update_noteq hxs,
        Function.update_noteq hxs]
      have hx4 : isCBB st4 x := by
        unfold isCBB
        rw [hk4]
        exact hx
      exact hinv4 x hx4

/-- C10: for every bundle node, at every observable point of a non-aborted
execution, its children set equals the union of its members and its
externalchildren: the constructor establishes the invariant, a successful
add_member inserts into members and children together, a successful
dispatched add_child inserts into externalchildren and children together,
and a successful unification re-points members, externalchildren and
children of the alias to the canonical sets together.  A failed operation
aborts construction (fatal per the error model), so no later observation
exists in that case. -/
theorem claim10_cbb_children_invariant :
    (∀ (st : St) (i : Nat) (nm : String) (mem exch : Finset Nat)
       (tp : Option Nat) (fid : Nat), cbbInv (mkCBB st i nm mem exch tp fid) i) ∧
    (∀ (fuel : Nat) (st : St) (b nd : Nat) (sp : Bool),
      (addMember fuel st b nd sp).2 = none →
      ∀ x, isCBB st x → cbbInv st x → cbbInv (addMember fuel st b nd sp).1 x) ∧
    (∀ (fuel : Nat) (st : St) (p c : Nat) (lbl : Option EdgeLabel),
      (addChildD fuel st p c lbl).2 = none →
      ∀ x, isCBB st x → cbbInv st x → cbbInv (addChildD fuel st p c lbl).1 x) ∧
    (∀ (fuel : Nat) (st : St) (self node : Nat),
      (becomePointer fuel st self node).2 = none →
      (∀ x, isCBB st x → cbbInv st x) →
      ∀ x, isCBB st x → cbbInv (becomePointer fuel st self node).1 x) := by
  refine ⟨?_, ?_, ?_, ?_⟩
  · intro st i nm mem exch tp fid
    unfold cbbInv mkCBB
    show Function.update st.children i (mem ∪ exch) i
      = Function.update st.members i mem i ∪ Function.update st.externalchildren i exch i
    rw [Function.update_same, Function.update_same, Function.update_same]
  · exact fun fuel st b nd sp h x hx hinv => addMember_cbbInv fuel st b nd sp h x hx hinv
  · exact fun fuel st p c lbl h x hx hinv => addChildD_cbbInv fuel st p c lbl h x hx hinv
  · exact fun fuel st self node h hall x hx => becomePointer_cbbInv fuel st self node h hall x hx

/-!
## Projectivity (FUDGGraph.isProjective, claim C9)

A read-only query: for every node whose fragment has at least two nodes, the
token yield of the node must occupy a contiguous block of positions within
the sequence of tokens that belong to some multi-node fragment.
-/

/-- Token yield of a node, get_yield: lexical nodes contribute their own
token set, every node unions the yields of its children; fuel bounds the
recursion depth of the source (which terminates on the acyclic graphs the
construction maintains). -/
def getYield (st : St) : Nat → Nat → Finset String
  | 0, n => if st.kind n = Kind.lex then st.tokens n else ∅
  | fuel + 1, n =>
    (if st.kind n = Kind.lex then st.tokens n else ∅) ∪
      (st.children n).biUnion (fun c => getYield st fuel c)

/-- Tokens that participate in a multi-node fragment, in sentence order: the
usedtokens list of isProjective. -/
def usedtokens (st : St) : List String :=
  st.alltokens.filter (fun t =>
    match st.token2lexnode t with
    | some m => decide (1 < (st.fragNodes (st.frag m)).card)
    | none => false)

/-- Positions of the yield tokens of n within usedtokens.  The source calls
list.index, which raises on a missing token; every yield token of a node in
a multi-node fragment belongs to the same fragment, so the call succeeds on
constructed graphs, and the embedding uses the total indexOf. -/
def yieldOffsets (st : St) (fuel : Nat) (n : Nat) : Finset Nat :=
  (getYield st fuel n).image (fun t => (usedtokens st).indexOf t)

/-- Per-node projectivity test of the source: the difference of the extreme
offsets equals the number of offsets minus one.  The source would raise on
an empty offset set (max of an empty sequence); the theorems below exclude
that case by hypothesis. -/
def nodeProjective (st : St) (fuel : Nat) (n : Nat) : Bool :=
  if h : (yieldOffsets st fuel n).Nonempty then
    decide ((yieldOffsets st fuel n).max' h - (yieldOffsets st fuel n).min' h
      = (yieldOffsets st fuel n).card - 1)
  else true

/-- FUDGGraph.isProjective: a pure query over the graph state returning a
boolean, short-circuiting to false at the first offending node. -/
def isProjective (st : St) (fuel : Nat) : Bool :=
  (fList st.nodes).all (fun n =>
    decide (isRoot st n) || decide ((st.fragNodes (st.frag n)).card < 2) ||
      nodeProjective st fuel n)

/-- Specification-side notion: a set of positions forms a contiguous range
when it is a nonempty interval of consecutive naturals. -/
def ContiguousRange (s : Finset Nat) : Prop :=
  ∃ a b : Nat, a ≤ b ∧ s = Finset.Icc a b

/-- The max-minus-min test of the source characterizes contiguity for
nonempty position sets. -/
lemma contiguous_iff (s : Finset Nat) (h : s.Nonempty) :
    (s.max' h - s.min' h = s.card - 1) ↔ ContiguousRange s := by
  constructor
  · intro hcard
    have hmm : s.min' h ≤ s.max' h := s.min'_le (s.max' h) (s.max'_mem h)
    refine ⟨s.min' h, s.max' h, hmm, ?_⟩
    have hsub : s ⊆ Finset.Icc (s.min' h) (s.max' h) := by
      intro x hx
      exact Finset.mem_Icc.mpr ⟨s.min'_le x hx, s.le_max' x hx⟩
    have hpos : 1 ≤ s.card := Finset.card_pos.mpr h
    have hicc : (Finset.Icc (s.min' h) (s.max' h)).card = s.card := by
      rw [Nat.card_Icc]
      omega
    exact Finset.eq_of_subset_of_card_le hsub (le_of_eq hicc)
  · rintro ⟨a, b, hab, hs⟩
    have hamem : a ∈ s := by
      rw [hs]
      exact Finset.mem_Icc.mpr ⟨le_rfl, hab⟩
    have hbmem : b ∈ s := by
      rw [hs]
      exact Finset.mem_Icc.mpr ⟨hab, le_rfl⟩
    have hmax : s.max' h = b := by
      apply le_antisymm
      · apply Finset.max'_le
        intro x hx
        rw [hs] at hx
        exact (Finset.mem_Icc.mp hx).2
      · exact s.le_max' b hbmem
    have hmin : s.min' h = a := by
      apply le_antisymm
      · exact s.min'_le a hamem
      · apply Finset.le_min'
        intro x hx
        rw [hs] at hx
        exact (Finset.mem_Icc.mp hx).1
    have hcard : s.card = b + 1 - a := by
      rw [hs, Nat.card_Icc]
    rw [hmax, hmin, hcard]
    omega

/-- C9 amended: the projectivity query — a pure function of the state,
mutating nothing by construction — returns true exactly when, for every
NON-ROOT node of the graph whose fragment has more than one node, the
positions of its token yield within the multi-fragment token sequence form
a contiguous range.  The restriction to non-root nodes is forced by the
source: the loop of isProjective skips the root (graph.py line 380), and
the counterexample claim9_counterexample below shows a graph on which the
root is the one node with a non-contiguous yield and the query still
answers true — so the original every-node phrasing is false of the code.
The remaining hypothesis excludes empty yields, on which the source would
raise instead of answering. -/
theorem claim9_projectivity (st : St) (fuel : Nat)
    (hy : ∀ n ∈ st.nodes, ¬ isRoot st n → 2 ≤ (st.fragNodes (st.frag n)).card →
      (yieldOffsets st fuel n).Nonempty) :
    isProjective st fuel = true ↔
      (∀ n ∈ st.nodes, ¬ isRoot st n → 2 ≤ (st.fragNodes (st.frag n)).card →
        ContiguousRange (yieldOffsets st fuel n)) := by
  unfold isProjective
  rw [List.all_eq_true]
  constructor
  · intro hall n hn hroot hcard
    have hmem : n ∈ fList st.nodes := by
      rw [mem_fList]
      exact hn
    have := hall n hmem
    rw [Bool.or_eq_true, Bool.or_eq_true] at this
    rcases this with (hr | hc) | hp
    · exact absurd (of_decide_eq_true hr) hroot
    · exact absurd (of_decide_eq_true hc) (by omega)
    · have hne := hy n hn hroot hcard
      unfold nodeProjective at hp
      rw [dif_pos hne] at hp
      exact (contiguous_iff _ hne).mp (of_decide_eq_true hp)
  · intro hall n hmem
    have hn : n ∈ st.nodes := by
      rw [mem_fList] at hmem
      exact hmem
    rw [Bool.or_eq_true, Bool.or_eq_true]
    by_cases hroot : isRoot st n
    · exact Or.inl (Or.inl (decide_eq_true hroot))
    · by_cases hcard : (st.fragNodes (st.frag n)).card < 2
      · exact Or.inl (Or.inr (decide_eq_true hcard))
      · refine Or.inr ?_
        have hne := hy n hn hroot (by omega)
        unfold nodeProjective
        rw [dif_pos hne]
        exact decide_eq_true
          ((contiguous_iff _ hne).mpr (hall n hn hroot (by omega)))

/-!
## Concrete graphs

Small instances used to demonstrate the code bug of claim C2, the
counterexamples of C5, C6 and C7, and to witness the hypotheses of the
remaining claims.
-/

/-- Empty attribute tables: the common background of the concrete states. -/
def baseSt : St where
  kind := fun _ => Kind.lex
  name := fun n => toString n
  children := fun _ => ∅
  childedges := fun _ => []
  parents := fun _ => ∅
  parentedges := fun _ => []
  height := fun _ => 0
  depth := fun _ => -1
  frag := fun n => n
  fragRoots := fun f => {f}
  fragNodes := fun f => {f}
  members := fun _ => ∅
  externalchildren := fun _ => ∅
  top := fun _ => none
  pointerto := fun _ => none
  tc := fun _ => ∅
  pc := fun _ => ∅
  nodes := ∅
  alltokens := []
  tokens := fun _ => ∅
  token2lexnode := fun _ => none

/-- Three fresh nodes: the root 0 and the lexical nodes 1 and 2, no edges
yet. -/
def stAG : St :=
  { baseSt with
    kind := fun n => if n = 0 then Kind.root else Kind.lex,
    nodes := {0, 1, 2} }

/-- The graph of stAG after add_child makes node 2 a dependent of node 1
(the root stays childless): node 1 is a fragment root with descendant 2. -/
def stC2 : St := (addChildD 8 stAG 1 2 none).1

/-- C2 (code bug): on the constructed graph with edge 1 to 2 and an
unattached node 1, the downward pass over the depth-sorted node enumeration
(a valid enumeration, last conjunct) seeds parentcandidates of node 1 with
the firm nodes minus node 1 only — the descendants subtraction of the
source removes nothing, because FUDGNode.descendants is a set of
itertools.groupby pairs and never of nodes — and the pass ends with node 2,
a true descendant of node 1, inside parentcandidates of node 1, which the
spec forbids. -/
theorem claim2_descendants_bug :
    ¬ isRoot stC2 1 ∧ 1 ∈ stC2.nodes ∧
    2 ∈ trueDescendants stC2 4 1 ∧
    seedPC stC2 1 = firmNodes stC2 \ {1} ∧
    DownHyp stC2 [0, 1, 2] ∧
    (downwardRun stC2 [0, 1, 2]).pc 1 = {0, 2} ∧
    2 ∈ (downwardRun stC2 [0, 1, 2]).pc 1 := by decide

/-- C5 counterexample: on the constructed graph with edge 1 to 2, asking for
the reverse edge raises the CycleError, and at that moment the children set
of the parent already contains the new child — the claim that all fields are
as they were before the call is false. -/
theorem claim5_counterexample :
    (addChildD 8 stC2 2 1 none).2 = some Err.cycleError ∧
    (addChildD 8 stC2 2 1 none).1.children 2 ≠ stC2.children 2 := by decide

/-- C5 witness: the amended theorem applied to the same concrete call. -/
theorem claim5_witness :
    stC2.name 2 ≠ stC2.name 1 ∧
    reachableF (chAdd (extPre stC2 2 1) 2 1 none) 8 1 2 = true ∧
    addChildD 8 stC2 2 1 none
      = (chAdd (extPre stC2 2 1) 2 1 none, some Err.cycleError) :=
  ⟨by decide, by decide,
   (claim5_cycle_error_state 8 stC2 2 1 none (by decide) (by decide) (by decide)).1⟩

/-- The root 0 and a bundle 1, no edges. -/
def stR : St :=
  { baseSt with
    kind := fun n => if n = 0 then Kind.root
      else if n = 1 then Kind.cbb else Kind.lex,
    nodes := {0, 1} }

/-- C6 counterexample: the Root as an unspec-labeled bundle member is
accepted by add_child — no InvariantViolation — although it is not being
inserted as the designated top, refuting the claim that only the
designated-top insertion is permitted. -/
theorem claim6_counterexample :
    isRoot stR 0 ∧ isCBB stR 1 ∧
    some EdgeLabel.unspec ≠ some EdgeLabel.top ∧
    (addChildD 8 stR 1 0 (some EdgeLabel.unspec)).2 ≠ some Err.invariantViolation := by
  decide

/-- C6 witness: the amended characterization applied to a concrete call in
which the Root is inserted as an ordinary unlabeled dependent of the bundle
and the InvariantViolation fires. -/
theorem claim6_witness :
    ((addChildD 8 stR 1 0 none).2 = some Err.invariantViolation ↔
      (stR.name 1 = stR.name 0 ∨
        (isRoot stR 0 ∧ ¬(isCBB stR 1 ∧ (none : Option EdgeLabel) ≠ none)))) ∧
    (addChildD 8 stR 1 0 none).2 = some Err.invariantViolation :=
  ⟨claim6_invariant_violation_iff 8 stR 1 0 none, by decide⟩

/-- A bundle 1 that already records node 2 as its designated top. -/
def stT : St :=
  { baseSt with
    kind := fun n => if n = 1 then Kind.cbb else Kind.lex,
    top := fun n => if n = 1 then some 2 else none,
    members := fun n => if n = 1 then {2} else ∅,
    children := fun n => if n = 1 then {2} else ∅,
    childedges := fun n => if n = 1 then [(2, some EdgeLabel.top)] else [],
    parents := fun n => if n = 2 then {1} else ∅,
    parentedges := fun n => if n = 2 then [(1, some EdgeLabel.top)] else [],
    nodes := {1, 2} }

/-- C7 counterexample: re-declaring the very same node as the designated top
fails with the duplicate-top error, although the bundle does not hold a
different designated top — the failure condition of the claim is wrong. -/
theorem claim7_counterexample :
    stT.top 1 = some 2 ∧
    (addMember 8 stT 1 2 true).2 = some Err.invariantViolation := by decide

/-- C7 witness: the amended characterization applied to a fresh bundle. -/
theorem claim7_witness :
    isCBB stR 1 ∧ stR.name 1 ≠ stR.name 2 ∧ stR.top 1 = none ∧
    ((addMember 8 stR 1 2 true).2 = some Err.invariantViolation ↔
      (stR.top 1).isSome) :=
  ⟨by decide, by decide, by decide,
   (claim7_add_member 8 stR 1 2 (by decide) (by decide)).2.2.2.1⟩

/-- C10 witness: a successful add_member preserves the bundle invariant on
the concrete bundle 1. -/
theorem claim10_witness :
    (addMember 8 stR 1 2 false).2 = none ∧ isCBB stR 1 ∧ cbbInv stR 1 ∧
    cbbInv (addMember 8 stR 1 2 false).1 1 :=
  ⟨by decide, by decide, by decide,
   claim10_cbb_children_invariant.2.1 8 stR 1 2 false (by decide) 1
     (by decide) (by decide)⟩

/-- Two bundles 5 and 6 with identical (empty) members sets. -/
def stQ : St :=
  { baseSt with
    kind := fun n => if n = 5 ∨ n = 6 then Kind.cbb else Kind.lex,
    nodes := {5, 6} }

/-- C4 witness: unification of the two equal-membership bundles succeeds,
records the forwarding pointer, and the reads of topcandidates through
either bundle coincide afterwards. -/
theorem claim4_witness :
    (becomePointer 4 stQ 5 6).2 = none ∧
    (becomePointer 4 stQ 5 6).1.pointerto 5 = some 6 ∧
    (becomePointer 4 stQ 5 6).1.pointerto 6 = none ∧
    tcRead (becomePointer 4 stQ 5 6).1 5 = tcRead (becomePointer 4 stQ 5 6).1 6 :=
  ⟨by decide, by decide, by decide,
   (claim4_alias_single_source (becomePointer 4 stQ 5 6).1 5 6
     (by decide) (by decide)).1.1⟩

/-- The scenario graph of the spec: root 0 above bundle 3 whose members are
the lexical nodes 1 and 2, both unspec, no designated top.  The field values
are the ones produced by the construction sequence add_member(3,1),
add_member(3,2), add_child(0,3): heights 0 for the leaves, 1 for the bundle,
2 for the root; depths 0, 1, 2, 2 from the root; one merged fragment rooted
at 0 (the fragment tables of the absorbed fragment ids keep their last
pre-merge values, as in the source, where the absorbed Fragment objects
simply stop being referenced). -/
def stS : St :=
  { baseSt with
    kind := fun n => if n = 0 then Kind.root else if n = 3 then Kind.cbb else Kind.lex,
    nodes := {0, 1, 2, 3},
    children := fun n => if n = 3 then {1, 2} else if n = 0 then {3} else ∅,
    childedges := fun n =>
      if n = 3 then [(1, some EdgeLabel.unspec), (2, some EdgeLabel.unspec)]
      else if n = 0 then [(3, none)] else [],
    parents := fun n => if n = 1 ∨ n = 2 then {3} else if n = 3 then {0} else ∅,
    parentedges := fun n =>
      if n = 1 ∨ n = 2 then [(3, some EdgeLabel.unspec)]
      else if n = 3 then [(0, none)] else [],
    members := fun n => if n = 3 then {1, 2} else ∅,
    height := fun n => if n = 0 then 2 else if n = 3 then 1 else 0,
    depth := fun n => if n = 0 then 0 else if n = 3 then 1
      else if n = 1 ∨ n = 2 then 2 else -1,
    frag := fun n => if n = 0 ∨ n = 1 ∨ n = 2 ∨ n = 3 then 0 else n,
    fragRoots := fun f => if f = 0 then {0} else if f = 3 then {3} else {f},
    fragNodes := fun f => if f = 0 then {0, 1, 2, 3}
      else if f = 3 then {1, 2, 3} else {f},
    alltokens := ["a", "b"],
    tokens := fun n => if n = 1 then {"a"} else if n = 2 then {"b"} else ∅,
    token2lexnode := fun t => if t = "a" then some 1
      else if t = "b" then some 2 else none }

/-- C1 witness: the upward pass on the scenario graph, with the no-top
branch of the theorem, computes exactly the two members as top candidates
of the bundle. -/
theorem claim1_witness :
    UpHyp stS [1, 2, 3, 0] ∧ isCBB stS 3 ∧
    (∀ ce ∈ stS.childedges 3, ce.2 ≠ some EdgeLabel.top) ∧
    tcRead (upwardRun stS [1, 2, 3, 0]) 3 = {1, 2} := by
  have hno : ∀ c, (c, some EdgeLabel.top) ∉ stS.childedges 3 := by
    intro c hc
    have hall : ∀ ce ∈ stS.childedges 3, ce.2 ≠ some EdgeLabel.top := by decide
    exact hall (c, some EdgeLabel.top) hc rfl
  refine ⟨by decide, by decide, by decide, ?_⟩
  have h := (claim1_upward_topcandidates stS [1, 2, 3, 0] (by decide) 3
    (by decide) (by decide)).2 hno
  rw [h]
  decide

/-- C3 witness: on the scenario graph the bundle is not among its own top
candidates and none of its top candidates is a bundle. -/
theorem claim3_witness :
    UpHyp stS [1, 2, 3, 0] ∧
    (3 ∉ tcRead (upwardRun stS [1, 2, 3, 0]) 3 ∧
     ∀ x ∈ tcRead (upwardRun stS [1, 2, 3, 0]) 3, ¬ isCBB stS x) :=
  ⟨by decide,
   claim3_topcandidates_no_bundle stS [1, 2, 3, 0] (by decide) (by decide) 3
     (by decide) (by decide)⟩

/-- C8 witness: both passes, run on the scenario graph in their sorted
orders, are idempotent. -/
theorem claim8_witness :
    UpHyp stS [1, 2, 3, 0] ∧
    DownHyp (upwardRun stS [1, 2, 3, 0]) [0, 3, 1, 2] ∧
    upwardRun (upwardRun stS [1, 2, 3, 0]) [1, 2, 3, 0]
      = upwardRun stS [1, 2, 3, 0] ∧
    downwardRun
        (downwardRun (upwardRun stS [1, 2, 3, 0]) [0, 3, 1, 2]) [0, 3, 1, 2]
      = downwardRun (upwardRun stS [1, 2, 3, 0]) [0, 3, 1, 2] := by
  refine ⟨by decide, by decide, ?_⟩
  exact claim8_passes_idempotent stS [1, 2, 3, 0] (by decide)
    (upwardRun stS [1, 2, 3, 0]) [0, 3, 1, 2] (by decide)

/-- Projective instance: root 0; fragment of nodes 1, 2, 3 with tokens t0,
t1, t2 (node 1 the fragment root); fragment of nodes 4, 5 with tokens t3,
t4. -/
def stPG : St :=
  { baseSt with
    kind := fun n => if n = 0 then Kind.root else Kind.lex,
    nodes := {0, 1, 2, 3, 4, 5},
    alltokens := ["t0", "t1", "t2", "t3", "t4"],
    tokens := fun n => if n = 1 then {"t0"} else if n = 2 then {"t1"}
      else if n = 3 then {"t2"} else if n = 4 then {"t3"}
      else if n = 5 then {"t4"} else ∅,
    token2lexnode := fun t => if t = "t0" then some 1 else if t = "t1" then some 2
      else if t = "t2" then some 3 else if t = "t3" then some 4
      else if t = "t4" then some 5 else none,
    children := fun n => if n = 1 then {2, 3} else if n = 4 then {5} else ∅,
    frag := fun n => if n = 1 ∨ n = 2 ∨ n = 3 then 1
      else if n = 4 ∨ n = 5 then 4 else n,
    fragNodes := fun f => if f = 1 then {1, 2, 3}
      else if f = 4 then {4, 5} else {f} }

/-- Non-projective instance: same tokens, but node 1 owns nodes 2 and 4
(tokens t0, t1, t3) while nodes 3 and 5 (tokens t2, t4) form the other
fragment, so the yield of node 1 occupies positions 0, 1, 3 of the used
token sequence, with a gap at position 2. -/
def stPB : St :=
  { baseSt with
    kind := fun n => if n = 0 then Kind.root else Kind.lex,
    nodes := {0, 1, 2, 3, 4, 5},
    alltokens := ["t0", "t1", "t2", "t3", "t4"],
    tokens := fun n => if n = 1 then {"t0"} else if n = 2 then {"t1"}
      else if n = 3 then {"t2"} else if n = 4 then {"t3"}
      else if n = 5 then {"t4"} else ∅,
    token2lexnode := fun t => if t = "t0" then some 1 else if t = "t1" then some 2
      else if t = "t2" then some 3 else if t = "t3" then some 4
      else if t = "t4" then some 5 else none,
    children := fun n => if n = 1 then {2, 4} else if n = 3 then {5} else ∅,
    frag := fun n => if n = 1 ∨ n = 2 ∨ n = 4 then 1
      else if n = 3 ∨ n = 5 then 3 else n,
    fragNodes := fun f => if f = 1 then {1, 2, 4}
      else if f = 3 then {3, 5} else {f} }

/-- C9 witness: both scenario instances — the characterization applied to
the non-projective graph, whose node 1 has yield offsets 0, 1, 3 and which
the query reports non-projective, while the projective variant with offsets
0, 1, 2 is reported projective. -/
theorem claim9_witness :
    (∀ n ∈ stPB.nodes, ¬ isRoot stPB n → 2 ≤ (stPB.fragNodes (stPB.frag n)).card →
      (yieldOffsets stPB 3 n).Nonempty) ∧
    (isProjective stPB 3 = true ↔
      (∀ n ∈ stPB.nodes, ¬ isRoot stPB n → 2 ≤ (stPB.fragNodes (stPB.frag n)).card →
        ContiguousRange (yieldOffsets stPB 3 n))) ∧
    yieldOffsets stPB 3 1 = {0, 1, 3} ∧
    isProjective stPB 3 = false ∧
    yieldOffsets stPG 3 1 = {0, 1, 2} ∧
    isProjective stPG 3 = true := by
  refine ⟨by decide, claim9_projectivity stPB 3 (by decide), by decide, by decide,
    by decide, by decide⟩

/-- Graph exhibiting the root skip of isProjective: the root 0 owns the
lexical nodes 1 (token a) and 2 (token c) in one fragment, node 3 (token d)
owns node 4 (token e) in another, and the sentence order is a, d, e, c.
Every non-root yield is contiguous, but the yield of the root is the tokens
a and c at positions 0 and 3 of the used-token sequence, with a gap. -/
def stPR : St :=
  { baseSt with
    kind := fun n => if n = 0 then Kind.root else Kind.lex,
    nodes := {0, 1, 2, 3, 4},
    alltokens := ["a", "d", "e", "c"],
    tokens := fun n => if n = 1 then {"a"} else if n = 2 then {"c"}
      else if n = 3 then {"d"} else if n = 4 then {"e"} else ∅,
    token2lexnode := fun t => if t = "a" then some 1 else if t = "c" then some 2
      else if t = "d" then some 3 else if t = "e" then some 4 else none,
    children := fun n => if n = 0 then {1, 2} else if n = 3 then {4} else ∅,
    parents := fun n => if n = 1 ∨ n = 2 then {0} else if n = 4 then {3} else ∅,
    frag := fun n => if n = 0 ∨ n = 1 ∨ n = 2 then 0
      else if n = 3 ∨ n = 4 then 3 else n,
    fragNodes := fun f => if f = 0 then {0, 1, 2}
      else if f = 3 then {3, 4} else {f} }

/-- C9 counterexample: the root of stPR belongs to a three-node fragment and
its yield offsets are 0 and 3 — not a contiguous range — yet the query
answers true, because the source skips the root; the original claim, which
quantifies over every node of a multi-node fragment, demands false here. -/
theorem claim9_counterexample :
    isRoot stPR 0 ∧ 0 ∈ stPR.nodes ∧
    2 ≤ (stPR.fragNodes (stPR.frag 0)).card ∧
    yieldOffsets stPR 3 0 = {0, 3} ∧
    ¬ ContiguousRange (yieldOffsets stPR 3 0) ∧
    isProjective stPR 3 = true := by
  have hyo : yieldOffsets stPR 3 0 = {0, 3} := by decide
  refine ⟨by decide, by decide, by decide, hyo, ?_, by decide⟩
  rw [hyo]
  rintro ⟨a, b, hab, hs⟩
  have h0 : (0 : ℕ) ∈ Finset.Icc a b := by
    rw [← hs]
    decide
  have h3 : (3 : ℕ) ∈ Finset.Icc a b := by
    rw [← hs]
    decide
  have h1 : (1 : ℕ) ∈ Finset.Icc a b := by
    rw [Finset.mem_Icc] at h0 h3 ⊢
    omega
  rw [← hs] at h1
  exact absurd h1 (by decide)

end FUDG
